import Mathlib

/-!
# kasia.go template engine: execution half (`template.go`)

A shallow embedding of `template.go` and the properties of its execution and
escaping code.

Conventions of the embedding.

* A Go `[]byte` and a Go `string` are lists of byte values (`Bytes`).
* An `interface{}` value and the `reflect.Value` wrapping it are one type,
  `Value`; the zero `reflect.Value` (`IsValid() == false`, what
  `reflect.ValueOf(nil)` gives) is `Value.invalid`.
* An `io.Writer` is its failure policy (`Writer`) together with the bytes
  appended so far, which are threaded explicitly through every function that
  writes.
* `getVarFun`, `getBool`, `getCmp`, `dereference` and the default text form
  used by `fmt.Fprint` are declared in other files of the package; they are
  the fields of `Host`; the general theorems are stated for every `Host`, and
  `sampleHost` serves for the concrete instances.
* Recursive functions take a fuel argument; `none` means that the call does
  not return normally with that fuel (it needs more fuel, or it panics).
-/

namespace Kasia

/-- A byte sequence: a Go `[]byte` or the bytes of a Go `string`. -/
abbrev Bytes := List Nat

/-- The bytes of an ASCII literal. -/
def ascii (s : String) : Bytes := s.toList.map Char.toNat

/-- Status codes `RUN_*`.  `template.go` names five of them; every further
failure code of the package is `other code`. -/
inductive Stat where
  | RUN_OK
  | RUN_NOT_FOUND
  | RUN_NIL_CTX
  | RUN_NESTED
  | RUN_INC_MAP_KEY
  | other (code : Nat)
deriving DecidableEq, Repr

/-- A Go `error` value other than nil: `RunErr{ln, stat, nil}`,
`RunErr{ln, stat, err}` with a non-nil cause, or an error reported by a sink
or by an escape hook. -/
inductive Error where
  | RunErr (ln : Nat) (stat : Stat)
  | RunErrCause (ln : Nat) (stat : Stat) (cause : Error)
  | io (code : Nat)
deriving DecidableEq, Repr

/-- An `io.Writer`, given by its failure policy: `refuse out p` is the error of
`Write(p)` when `out` has been appended so far, `none` when the write
succeeds.  A failed write appends nothing. -/
structure Writer where
  refuse : Bytes → Bytes → Option Error

/-- The call `wr.Write(p)` on a sink that holds `out`. -/
def Writer.Write (wr : Writer) (out p : Bytes) : Bytes × Option Error :=
  match wr.refuse out p with
  | some e => (out, some e)
  | none => (out ++ p, none)

/-- A `bytes.Buffer` used as a writer: it never fails. -/
def bytesBuffer : Writer := ⟨fun _ _ => none⟩

/-- A sink whose writes never fail. -/
def Writer.NeverFails (wr : Writer) : Prop := ∀ out p, wr.refuse out p = none

/-- The type of `Template.EscapeFunc`: `func(io.Writer, []byte) error`, with
the contents of the sink before and after. -/
abbrev EscapeFn := Writer → Bytes → Bytes → Bytes × Option Error

/-- The comparator of an `IfElem`: `if_nocmp` or one of the comparison
operators. -/
inductive Cmp where
  | if_nocmp
  | op (code : Nat)
deriving DecidableEq, Repr

mutual
/-- A host value (`interface{}` / `reflect.Value`). -/
inductive Value where
  | invalid
  | int (n : Int)
  | str (s : Bytes)
  | bytes (b : Bytes)
  | slice (xs : List Value)
  | map (kvs : List (Value × Value))
  | chan (items : List Value)
  | ctxItself (ctx : List Value)
  | tpl (t : Template)
  | nested (t : Template) (ctx : List Value)
  | other (tag : Nat)
/-- The struct `Template`. -/
inductive Template where
  | mk (elems : List Element) (Strict : Bool) (EscapeFunc : Option EscapeFn)
/-- The node kinds `*TxtElem`, `*VarFunElem`, `*IfElem`, `*ForElem`,
`*ReturnElem`, `*DeferElem`. -/
inductive Element where
  | TxtElem (txt : Bytes)
  | VarFun (vf : VarFunElem)
  | IfElem (ln : Nat) (cmp : Cmp) (arg1 arg2 : Param)
      (true_block false_block : List Element)
  | ForElem (ln : Nat) (arg : VarFunElem) (val iter : Bytes) (iter_inc : Int)
      (iter_block else_block : List Element)
  | ReturnElem
  | DeferElem (defer_block : List Element)
/-- The struct `VarFunElem`: one segment of a path, linked to the next. -/
inductive VarFunElem where
  | mk (ln : Nat) (filt fn : Bool) (name : Param) (args : List Param)
      (next : Option VarFunElem)
/-- What a segment name or an argument can be: nil, a `reflect.Value`
literal, a parsed text `[]Element`, or a `*VarFunElem`. -/
inductive Param where
  | nil
  | value (pv : Value)
  | elems (pv : List Element)
  | varFun (pv : VarFunElem)
end

def Template.elems : Template → List Element
  | .mk e _ _ => e

def Template.Strict : Template → Bool
  | .mk _ s _ => s

def Template.EscapeFunc : Template → Option EscapeFn
  | .mk _ _ f => f

def VarFunElem.ln : VarFunElem → Nat
  | .mk ln _ _ _ _ _ => ln

def VarFunElem.filt : VarFunElem → Bool
  | .mk _ filt _ _ _ _ => filt

def VarFunElem.fn : VarFunElem → Bool
  | .mk _ _ fn _ _ _ => fn

def VarFunElem.name : VarFunElem → Param
  | .mk _ _ _ name _ _ => name

def VarFunElem.args : VarFunElem → List Param
  | .mk _ _ _ _ args _ => args

def VarFunElem.next : VarFunElem → Option VarFunElem
  | .mk _ _ _ _ _ next => next

/-- The method `reflect.Value.IsValid`. -/
def Value.IsValid : Value → Bool
  | .invalid => false
  | _ => true

/-- The cases that `switch val.Kind()` of the `ForElem` branch tells apart. -/
inductive Kind where
  | Invalid
  | Slice
  | Map
  | Chan
  | Scalar
deriving DecidableEq, Repr

/-- The method `reflect.Value.Kind`, up to the cases of `Kind`
(`reflect.Array` and `reflect.Slice` are both `Kind.Slice`). -/
def Value.Kind : Value → Kind
  | .invalid => .Invalid
  | .bytes _ => .Slice
  | .slice _ => .Slice
  | .ctxItself _ => .Slice
  | .map _ => .Map
  | .chan _ => .Chan
  | _ => .Scalar

/-- The elements `val.Index(0)`, ..., `val.Index(val.Len()-1)` of a value of
kind array or slice. -/
def Value.items : Value → List Value
  | .bytes b => b.map fun x => Value.int x
  | .slice xs => xs
  | .ctxItself ctx => ctx
  | _ => []

/-- The functions of the package that `template.go` calls and that are
declared in its other files. -/
structure Host where
  getVarFun : Value → Value → List Value → Bool → Value × Stat
  dereference : Value → Value
  getBool : Value → Bool
  getCmp : Value → Value → Cmp → Bool × Stat
  fprint : Value → Bytes

/-! ## `WriteEscapedHtml` -/

def esc_amp : Bytes := ascii "&amp;"
def esc_apos : Bytes := ascii "&apos;"
def esc_lt : Bytes := ascii "&lt;"
def esc_gt : Bytes := ascii "&gt;"
def esc_quot : Bytes := ascii "&quot;"

/-- The sub-slice `txt[lo:hi]`. -/
def subslice (txt : Bytes) (lo hi : Nat) : Bytes := (txt.take hi).drop lo

/-- The `switch bb` of `WriteEscapedHtml`: the entity chosen for `bb`, `none`
in the `default: continue` case. -/
def escOf (bb : Nat) : Option Bytes :=
  if bb = 38 then some esc_amp
  else if bb = 39 then some esc_apos
  else if bb = 60 then some esc_lt
  else if bb = 62 then some esc_gt
  else if bb = 34 then some esc_quot
  else none

/-- The loop `for ii, bb := range txt` of `WriteEscapedHtml`, from index `ii`
on (`rest` is `txt[ii:]`), followed by the final `wr.Write(txt[last:])`. -/
def WriteEscapedHtml.loop (wr : Writer) (txt : Bytes) :
    Bytes → Nat → Nat → Bytes → Bytes × Option Error
  | [], _, last, out => wr.Write out (subslice txt last txt.length)
  | bb :: rest, ii, last, out =>
    match escOf bb with
    | none => WriteEscapedHtml.loop wr txt rest (ii + 1) last out
    | some esc =>
      match wr.Write out (subslice txt last ii) with
      | (out1, some e) => (out1, some e)
      | (out1, none) =>
        match wr.Write out1 esc with
        | (out2, some e) => (out2, some e)
        | (out2, none) => WriteEscapedHtml.loop wr txt rest (ii + 1) (ii + 1) out2

/-- The function `WriteEscapedHtml(wr, txt)`; `out` is what the sink holds
before the call. -/
def WriteEscapedHtml : EscapeFn := fun wr out txt =>
  WriteEscapedHtml.loop wr txt txt 0 0 out

/-- The function `New`: an empty template with the HTML escaper as hook. -/
def New : Template := .mk [] false (some WriteEscapedHtml)

/-- The escaping of one byte in the words of the specification: an entity for
each of the five characters, the byte itself otherwise. -/
def escapeByteSpec (bb : Nat) : Bytes :=
  if bb = '&'.toNat then ascii "&amp;"
  else if bb = '\''.toNat then ascii "&apos;"
  else if bb = '<'.toNat then ascii "&lt;"
  else if bb = '>'.toNat then ascii "&gt;"
  else if bb = '"'.toNat then ascii "&quot;"
  else [bb]

/-- The escaped text in the words of the specification: the concatenation of
the escapings of the bytes, in order. -/
def escapeSpec (txt : Bytes) : Bytes := (txt.map escapeByteSpec).flatten

/-! ## Resolution and execution -/

/-- The named results and the effects of `Template.run`: `ret`, `err`, the
contents of the sink and the deferred-output registry `*defer_out`. -/
structure RunRes where
  ret : Bool
  err : Option Error
  out : Bytes
  defer_out : List Bytes

/-- The test `ret || err != nil` after a recursive `run`. -/
def RunRes.stop (r : RunRes) : Bool := r.ret || r.err.isSome

/-- The assignment `m[k] = v` on a `map[string]interface{}` kept as an
association list. -/
def mapSet : List (Value × Value) → Bytes → Value → List (Value × Value)
  | [], k, v => [(Value.str k, v)]
  | (Value.str k1, v1) :: m, k, v =>
    if k1 = k then (Value.str k1, v) :: m else (Value.str k1, v1) :: mapSet m k v
  | e :: m, k, v => e :: mapSet m k v

/-- The value of a Go `int` computed from the mathematical result `x`: Go
integer arithmetic wraps around on overflow.  `int` is taken 64 bits wide. -/
def wrapInt (x : Int) : Int :=
  (x + 9223372036854775808) % 18446744073709551616 - 9223372036854775808

/-- The map `local_ctx` of the `ForElem` branch after `local_ctx[el.val] = ev`
and `local_ctx[el.iter] = idx`, in that order. -/
def localCtx (val iter : Bytes) (ev idx : Value) : Value :=
  Value.map (mapSet (mapSet [] val ev) iter idx)

/-- The value stored under `el.val`: `ev.Interface()` if `ev.IsValid()`, nil
otherwise. -/
def ifaceOf (ev : Value) : Value := if ev.IsValid then ev else Value.invalid

/-- The search loop of `execVarFun`, `scopes` being the scopes still to
probe, innermost first, and `acc` the current `(val, stat)`. -/
def searchCtx (h : Host) (name_id : Value) (args : List Value) (fn : Bool) :
    List Value → Value × Stat → Value × Stat
  | [], acc => acc
  | s :: scopes, _ =>
    let r := h.getVarFun s name_id args fn
    if r.2 = Stat.RUN_OK then r else searchCtx h name_id args fn scopes r

/-- The loop of `Run` that writes the deferred buffers, `bufs` being
`defer_out` from its last entry to its first. -/
def flushDeferred (wr : Writer) : List Bytes → Bytes → Bytes × Option Error
  | [], out => (out, none)
  | b :: bufs, out =>
    match wr.Write out b with
    | (out1, some e) => (out1, some e)
    | (out1, none) => flushDeferred wr bufs out1

/-- The output step of the `[]byte` and default cases of a `VarFunElem`:
through `tpl.EscapeFunc` if `el.filt` and the hook is set, else verbatim. -/
def emit (tpl : Template) (wr : Writer) (filt : Bool) (out txt : Bytes) :
    Bytes × Option Error :=
  if filt then
    match tpl.EscapeFunc with
    | some f => f wr out txt
    | none => wr.Write out txt
  else wr.Write out txt

mutual
/-- The function `execParam` (the writer argument, which is only passed on and
never written to, is left out). -/
def execParam (h : Host) :
    Nat → Param → List Value → Nat → Bool → Option (Except Error Value)
  | 0, _, _, _, _ => none
  | fuel + 1, par, ctx, _, strict =>
    match par with
    | .value pv => some (.ok pv)
    | .elems pv =>
      match Run h fuel (.mk pv true none) bytesBuffer [] ctx with
      | none => none
      | some (_, some e) => some (.error e)
      | some (buf, none) => some (.ok (.str buf))
    | .varFun pv => execVarFun h fuel pv ctx strict
    -- default: panic("Unknown parameter type!")
    | .nil => none

/-- The loop of `execArgs` over `vf.args`, from the argument list `args` on. -/
def execArgs (h : Host) :
    Nat → List Param → List Value → Nat → Option (Except Error (List Value))
  | 0, _, _, _ => none
  | _ + 1, [], _, _ => some (.ok [])
  | fuel + 1, a :: as, ctx, ln =>
    match execParam h fuel a ctx ln true with
    | none => none
    | some (.error e) => some (.error e)
    | some (.ok arg) =>
      match execArgs h fuel as ctx ln with
      | none => none
      | some (.error e) => some (.error e)
      | some (.ok args) => some (.ok (arg :: args))

/-- The first loop of `execVarFun`, `for pv := vf; pv != nil; pv = pv.next`:
the keys of the segments from `pv` on.  (The `default: panic` of its switch has
no counterpart: `Param` has only the four forms that the switch handles.) -/
def pathNames (h : Host) :
    Nat → Option VarFunElem → List Value → Option (Except Error (List Value))
  | 0, _, _ => none
  | _ + 1, none, _ => some (.ok [])
  | fuel + 1, some pv, ctx =>
    let name_id : Option (Except Error Value) :=
      match pv.name with
      | .value pe => some (.ok pe)
      | .elems pe =>
        match Run h fuel (.mk pe true none) bytesBuffer [] ctx with
        | none => none
        | some (_, some e) => some (.error e)
        | some (buf, none) => some (.ok (.str buf))
      | .varFun pe => execVarFun h fuel pe ctx true
      | .nil => some (.ok Value.invalid)
    match name_id with
    | none => none
    | some (.error e) => some (.error e)
    | some (.ok n) =>
      match pathNames h fuel pv.next ctx with
      | none => none
      | some (.error e) => some (.error e)
      | some (.ok path) => some (.ok (n :: path))

/-- The last loop of `execVarFun`, `for _, name_id = range path[1:]`: `val` is
the value resolved so far, `names` the keys still to follow and `vf` the
segment resolved last. -/
def restPath (h : Host) :
    Nat → Value → List Value → VarFunElem → List Value → Bool →
      Option (Except Error Value)
  | 0, _, _, _, _, _ => none
  | _ + 1, val, [], _, _, _ => some (.ok val)
  | fuel + 1, val, name_id :: names, vf, ctx, strict =>
    match vf.next with
    -- `vf = vf.next` is nil only if the path had fewer segments than keys
    | none => none
    | some vf1 =>
      match execArgs h fuel vf1.args ctx vf1.ln with
      | none => none
      | some (.error e) => some (.error e)
      | some (.ok args) =>
        let r := h.getVarFun val name_id args vf1.fn
        if r.2 ≠ Stat.RUN_OK then
          if strict || (r.2 ≠ Stat.RUN_NOT_FOUND && r.2 ≠ Stat.RUN_NIL_CTX) then
            some (.error (Error.RunErr vf1.ln r.2))
          else some (.ok r.1)
        else restPath h fuel r.1 names vf1 ctx strict

/-- The function `execVarFun` (without the writer argument, which is only
passed on). -/
def execVarFun (h : Host) :
    Nat → VarFunElem → List Value → Bool → Option (Except Error Value)
  | 0, _, _, _ => none
  | fuel + 1, vf, ctx, strict =>
    match pathNames h fuel (some vf) ctx with
    | none => none
    | some (.error e) => some (.error e)
    | some (.ok path) =>
      match execArgs h fuel vf.args ctx vf.ln with
      | none => none
      | some (.error e) => some (.error e)
      | some (.ok args) =>
        match path with
        -- `path[0]` exists: `vf` is not nil
        | [] => none
        | name_id :: names =>
          if name_id.IsValid || vf.fn then
            let r := searchCtx h name_id args vf.fn ctx.reverse
              (Value.invalid, Stat.RUN_OK)
            if r.2 ≠ Stat.RUN_OK then
              if strict then some (.error (Error.RunErr vf.ln r.2))
              else some (.ok r.1)
            else restPath h fuel r.1 names vf ctx strict
          else restPath h fuel (Value.ctxItself ctx) names vf ctx strict

/-- The method `Template.Run`; `out` is what the sink holds before the call,
the result is what it holds after, and the error. -/
def Run (h : Host) :
    Nat → Template → Writer → Bytes → List Value → Option (Bytes × Option Error)
  | 0, _, _, _, _ => none
  | fuel + 1, tpl, wr, out, ctx =>
    match run h fuel tpl tpl.elems wr out [] ctx none with
    | none => none
    | some r =>
      match r.err with
      | some e => some (r.out, some e)
      | none => some (flushDeferred wr r.defer_out.reverse r.out)

/-- The loop `for _, va := range tpl.elems` of `Template.run`, from the
element list `elems` on; `tpl` gives `Strict` and `EscapeFunc`, `err` is the
current value of the named result `err`. -/
def run (h : Host) :
    Nat → Template → List Element → Writer → Bytes → List Bytes → List Value →
      Option Error → Option RunRes
  | 0, _, _, _, _, _, _, _ => none
  | _ + 1, _, [], _, out, d, _, err => some ⟨false, err, out, d⟩
  | fuel + 1, tpl, va :: rest, wr, out, d, ctx, err =>
    match va with
    | .TxtElem txt =>
      match wr.Write out txt with
      | (out1, some e) => some ⟨false, some e, out1, d⟩
      | (out1, none) => run h fuel tpl rest wr out1 d ctx none
    | .VarFun el =>
      match execVarFun h fuel el ctx tpl.Strict with
      | none => none
      | some (.error e) => some ⟨false, some e, out, d⟩
      | some (.ok val0) =>
        match h.dereference val0 with
        | .invalid => run h fuel tpl rest wr out d ctx none
        | .tpl vtn =>
          match Run h fuel vtn wr out ctx with
          | none => none
          | some (out1, some e) =>
            some ⟨false, some (Error.RunErrCause el.ln Stat.RUN_NESTED e), out1, d⟩
          | some (out1, none) => run h fuel tpl rest wr out1 d ctx none
        | .nested vtn_tpl vtn_ctx =>
          match Run h fuel vtn_tpl wr out vtn_ctx with
          | none => none
          | some (out1, some e) =>
            some ⟨false, some (Error.RunErrCause el.ln Stat.RUN_NESTED e), out1, d⟩
          | some (out1, none) => run h fuel tpl rest wr out1 d ctx none
        | .bytes vtn =>
          let w := emit tpl wr el.filt out vtn
          run h fuel tpl rest wr w.1 d ctx w.2
        | vtn =>
          let w := emit tpl wr el.filt out (h.fprint vtn)
          run h fuel tpl rest wr w.1 d ctx w.2
    | .IfElem ln cmp arg1 arg2 true_block false_block =>
      match execParam h fuel arg1 ctx ln (cmp != Cmp.if_nocmp) with
      | none => none
      | some (.error e) => some ⟨false, some e, out, d⟩
      | some (.ok v1) =>
        let tf : Option (Except Error Bool) :=
          if cmp = Cmp.if_nocmp then some (.ok (h.getBool v1))
          else
            match execParam h fuel arg2 ctx ln true with
            | none => none
            | some (.error e) => some (.error e)
            | some (.ok v2) =>
              let c := h.getCmp v1 v2 cmp
              if c.2 ≠ Stat.RUN_OK then some (.error (Error.RunErr ln c.2))
              else some (.ok c.1)
        match tf with
        | none => none
        | some (.error e) => some ⟨false, some e, out, d⟩
        | some (.ok tf) =>
          match run h fuel tpl (if tf then true_block else false_block)
              wr out d ctx none with
          | none => none
          | some r =>
            if r.stop then some r
            else run h fuel tpl rest wr r.out r.defer_out ctx none
    | .ForElem ln arg val iter iter_inc iter_block else_block =>
      match execVarFun h fuel arg ctx false with
      | none => none
      | some (.error e) => some ⟨false, some e, out, d⟩
      | some (.ok val0) =>
        let v := h.dereference val0
        let blk : Option RunRes :=
          match v.Kind with
          | .Slice =>
            if v.items.length ≠ 0 then
              forSlice h fuel tpl iter_block val iter iter_inc wr ctx v.items 0 out d
            else run h fuel tpl else_block wr out d ctx none
          | .Map =>
            match v with
            | .map kvs =>
              if kvs.length ≠ 0 then
                if iter_inc ≠ 0 then
                  some ⟨false, some (Error.RunErr ln Stat.RUN_INC_MAP_KEY), out, d⟩
                else forMap h fuel tpl iter_block val iter wr ctx kvs out d
              else run h fuel tpl else_block wr out d ctx none
            | _ => none
          | .Chan =>
            match v with
            | .chan items =>
              match forChan h fuel tpl iter_block val iter wr ctx items iter_inc out d with
              | none => none
              | some (r, ii) =>
                if r.stop then some r
                else if ii = iter_inc then
                  run h fuel tpl else_block wr r.out r.defer_out ctx none
                else some r
            | _ => none
          | .Invalid => run h fuel tpl else_block wr out d ctx none
          | .Scalar =>
            run h fuel tpl iter_block wr out d
              (ctx ++ [Value.map (mapSet (mapSet [] val v) iter Value.invalid)]) none
        match blk with
        | none => none
        | some r =>
          if r.stop then some r
          else run h fuel tpl rest wr r.out r.defer_out ctx none
    | .ReturnElem => some ⟨true, err, out, d⟩
    | .DeferElem defer_block =>
      match run h fuel tpl defer_block bytesBuffer [] d ctx none with
      | none => none
      | some r =>
        match r.err with
        | some e => some ⟨false, some e, out, r.defer_out⟩
        | none => run h fuel tpl rest wr out (r.defer_out ++ [r.out]) ctx none

/-- The loop `for ii := 0; ii < val_len; ii++` of the array/slice case:
`evs` are the elements `val.Index(ii)`, `val.Index(ii+1)`, ...  The index value
`ii + el.iter_inc` is a Go `int` sum. -/
def forSlice (h : Host) :
    Nat → Template → List Element → Bytes → Bytes → Int → Writer → List Value →
      List Value → Nat → Bytes → List Bytes → Option RunRes
  | 0, _, _, _, _, _, _, _, _, _, _, _ => none
  | _ + 1, _, _, _, _, _, _, _, [], _, out, d => some ⟨false, none, out, d⟩
  | fuel + 1, tpl, iter_block, val, iter, iter_inc, wr, ctx, ev :: evs, ii, out, d =>
    match run h fuel tpl iter_block wr out d
        (ctx ++ [localCtx val iter (ifaceOf ev) (Value.int (wrapInt (ii + iter_inc)))]) none with
    | none => none
    | some r =>
      if r.stop then some r
      else forSlice h fuel tpl iter_block val iter iter_inc wr ctx evs (ii + 1)
        r.out r.defer_out

/-- The loop `for _, key := range val.MapKeys()` of the map case, the keys
being taken in the order of the association list. -/
def forMap (h : Host) :
    Nat → Template → List Element → Bytes → Bytes → Writer → List Value →
      List (Value × Value) → Bytes → List Bytes → Option RunRes
  | 0, _, _, _, _, _, _, _, _, _ => none
  | _ + 1, _, _, _, _, _, _, [], out, d => some ⟨false, none, out, d⟩
  | fuel + 1, tpl, iter_block, val, iter, wr, ctx, kv :: kvs, out, d =>
    match run h fuel tpl iter_block wr out d
        (ctx ++ [localCtx val iter (ifaceOf kv.2) kv.1]) none with
    | none => none
    | some r =>
      if r.stop then some r
      else forMap h fuel tpl iter_block val iter wr ctx kvs r.out r.defer_out

/-- The loop `for { ev, ok := val.Recv() ... ii++ }` of the channel case:
`items` are the values still to be received before the channel is closed,
`ii` the running counter (a Go `int`, incremented by `ii++`), which is returned
with the result. -/
def forChan (h : Host) :
    Nat → Template → List Element → Bytes → Bytes → Writer → List Value →
      List Value → Int → Bytes → List Bytes → Option (RunRes × Int)
  | 0, _, _, _, _, _, _, _, _, _, _ => none
  | _ + 1, _, _, _, _, _, _, [], ii, out, d => some (⟨false, none, out, d⟩, ii)
  | fuel + 1, tpl, iter_block, val, iter, wr, ctx, ev :: items, ii, out, d =>
    match run h fuel tpl iter_block wr out d
        (ctx ++ [localCtx val iter (ifaceOf ev) (Value.int ii)]) none with
    | none => none
    | some r =>
      if r.stop then some (r, ii)
      else forChan h fuel tpl iter_block val iter wr ctx items (wrapInt (ii + 1))
        r.out r.defer_out
end

/-- The method `Template.run(wr, defer_out, ctx...)`. -/
def Template.run (h : Host) (fuel : Nat) (tpl : Template) (wr : Writer)
    (out : Bytes) (defer_out : List Bytes) (ctx : List Value) : Option RunRes :=
  Kasia.run h fuel tpl tpl.elems wr out defer_out ctx none

/-- The method `Template.Nested`. -/
def Template.Nested (tpl : Template) (ctx : List Value) : Value :=
  Value.nested tpl ctx

/-! ## A sample host -/

/-- The lookup `m[k]` in a `map[string]interface{}` kept as an association
list. -/
def mapGet : List (Value × Value) → Bytes → Option Value
  | [], _ => none
  | (Value.str k1, v) :: m, k => if k1 = k then some v else mapGet m k
  | _ :: m, k => mapGet m k

/-- Modelled from the spec: `getVarFun` is declared outside `template.go`.
This sample probe follows the host value capability contract for string-keyed
maps only: a nil scope is a nil-receiver failure, a call is a not-callable
failure (`other 1`), a string key present in a map scope is found, and
everything else is not found.  A failed probe returns the zero value. -/
def sampleGetVarFun (scope name_id : Value) (_ : List Value) (fn : Bool) :
    Value × Stat :=
  match scope with
  | .invalid => (Value.invalid, Stat.RUN_NIL_CTX)
  | .map kvs =>
    if fn then (Value.invalid, Stat.other 1)
    else
      match name_id with
      | .str k =>
        match mapGet kvs k with
        | some v => (v, Stat.RUN_OK)
        | none => (Value.invalid, Stat.RUN_NOT_FOUND)
      | _ => (Value.invalid, Stat.RUN_NOT_FOUND)
  | _ => if fn then (Value.invalid, Stat.other 1) else (Value.invalid, Stat.RUN_NOT_FOUND)

/-- Modelled from the spec: the truthiness of a value (`getBool` is declared
outside `template.go`): nil, an empty sequence, map or string and the number
zero are false. -/
def sampleGetBool : Value → Bool
  | .invalid => false
  | .int n => n != 0
  | .str s => !s.isEmpty
  | .bytes b => !b.isEmpty
  | .slice xs => !xs.isEmpty
  | .map kvs => !kvs.isEmpty
  | .ctxItself ctx => !ctx.isEmpty
  | _ => true

/-- Modelled from the spec: a sample default text form (`fmt.Fprint` on a host
value): the bytes of a string, the decimal digits of an integer, nothing for
the other values. -/
def sampleFprint : Value → Bytes
  | .str s => s
  | .int n =>
    if n < 0 then 45 :: (Nat.toDigits 10 n.natAbs).map Char.toNat
    else (Nat.toDigits 10 n.natAbs).map Char.toNat
  | _ => []

/-- Modelled from the spec: a sample host.  `dereference` has no indirection
layer to unwrap in `Value`, and the sample `getCmp` compares integers for
equality (operator `op 0`) and rejects every other pair of categories
(`other 2`). -/
def sampleHost : Host where
  getVarFun := sampleGetVarFun
  dereference := fun v => v
  getBool := sampleGetBool
  getCmp := fun a b _ =>
    match a, b with
    | .int x, .int y => (x == y, Stat.RUN_OK)
    | _, _ => (false, Stat.other 2)
  fprint := sampleFprint

/-- A one-segment path `$name` at line `ln`. -/
def var (ln : Nat) (name : String) : VarFunElem :=
  .mk ln true false (.value (.str (ascii name))) [] none

/-- A text node. -/
def txt (s : String) : Element := .TxtElem (ascii s)

/-- A map scope with string keys. -/
def scope (kvs : List (String × Value)) : Value :=
  .map (kvs.map fun kv => (Value.str (ascii kv.1), kv.2))

/-! ## Sample documents and the definitions used to state the properties -/

/-- A document that registers a deferred block, then loops over `$xs` with a
body that writes `a`, returns, and would write `b`; `z` follows the loop. -/
def returnDoc : Template :=
  .mk [.DeferElem [txt "D"],
       .ForElem 2 (var 2 "xs") (ascii "x") (ascii "i") 0
         [txt "a", .ReturnElem, txt "b"] [txt "e"],
       txt "z"] true none

/-- A context whose `xs` is a sequence of three integers. -/
def returnCtx : List Value :=
  [scope [("xs", .slice [.int 1, .int 2, .int 3])]]

/-- The sources for which the `ForElem` branch runs `else_block`: an empty
array or slice, an empty map, a channel closed before anything is received,
and nil. -/
def EmptySource (v : Value) : Prop :=
  (v.Kind = Kind.Slice ∧ v.items = []) ∨ v = Value.map [] ∨ v = Value.chan [] ∨
    v.Kind = Kind.Invalid

/-- The two-segment path `$a.b` (lines 4 and 5); `call` makes the second
segment a call `$a.b()`. -/
def pathAB (call : Bool) : VarFunElem :=
  .mk 4 true false (.value (.str (ascii "a"))) []
    (some (.mk 5 true call (.value (.str (ascii "b"))) [] none))

/-- A context in which `a` is a map without the key `b`. -/
def ctxA : List Value := [scope [("a", scope [("c", .int 1)])]]

/-- Successive executions of a block, one per context stack of `stacks` and in
that order, each starting from the sink and the registry left by the one
before; an execution that ends with `ret` or an error ends them all.  As in
the loops of `run`, every execution uses one unit of fuel. -/
def bodyRuns (h : Host) :
    Nat → Template → List Element → Writer → List (List Value) → Bytes →
      List Bytes → Option RunRes
  | 0, _, _, _, _, _, _ => none
  | _ + 1, _, _, _, [], out, d => some ⟨false, none, out, d⟩
  | fuel + 1, tpl, blk, wr, c :: cs, out, d =>
    match run h fuel tpl blk wr out d c none with
    | none => none
    | some r =>
      if r.stop then some r
      else bodyRuns h fuel tpl blk wr cs r.out r.defer_out

/-- The scope of one iteration in the words of the specification: the element
name bound to the element and the index name bound to the index value. -/
def iterScopeSpec (val iter : Bytes) (ev idx : Value) : Value :=
  Value.map [(Value.str val, ev), (Value.str iter, idx)]

/-- The context stacks of the iterations over the elements `evs`, the first of
which has index `i`: the stack `ctx` extended by the scope of the iteration. -/
def loopStacks (ctx : List Value) (val iter : Bytes) (inc : Int) :
    Nat → List Value → List (List Value)
  | _, [] => []
  | i, ev :: evs =>
    (ctx ++ [localCtx val iter (ifaceOf ev) (Value.int (wrapInt (i + inc)))]) ::
      loopStacks ctx val iter inc (i + 1) evs

/-- A loop over `$xs` whose element name and index name are both `x` and whose
body prints `$x`. -/
def sameNameLoop : Template :=
  .mk [.ForElem 1 (var 1 "xs") (ascii "x") (ascii "x") 0
        [.VarFun (var 1 "x")] []] true none

/-- The same loop with the index name `i`. -/
def twoNameLoop : Template :=
  .mk [.ForElem 1 (var 1 "xs") (ascii "x") (ascii "i") 0
        [.VarFun (var 1 "x")] []] true none

/-- A context whose `xs` is the sequence `"a"`, `"b"`. -/
def ctxAB : List Value := [scope [("xs", .slice [.str (ascii "a"), .str (ascii "b")])]]

/-- A loop over `$xs` whose index offset is the largest Go `int` and whose
body prints the index `$i`. -/
def overflowLoop : Template :=
  .mk [.ForElem 1 (var 1 "xs") (ascii "x") (ascii "i") 9223372036854775807
        [.VarFun (var 1 "i")] []] true none

/-- A loop over `$xs` with index offset 1 whose body prints the index `$i`. -/
def indexLoop : Element :=
  .ForElem 1 (var 1 "xs") (ascii "x") (ascii "i") 1 [.VarFun (var 1 "i")] [txt "e"]

/-- A loop over `$m` with index offset 1, body `b` and empty-branch `e`. -/
def mapLoop : Element :=
  .ForElem 7 (var 7 "m") (ascii "v") (ascii "k") 1 [txt "b"] [txt "e"]

/-- An escape hook that reports no error when the sink it writes to never fails
(no hook at all counts). -/
def HookQuiet (f : Option EscapeFn) : Prop :=
  ∀ g, f = some g → ∀ wr : Writer, wr.NeverFails → ∀ out txt : Bytes,
    (g wr out txt).2 = none

/-- An escape hook that writes nothing and reports the error `io 7`. -/
def failingHook : EscapeFn := fun _ out _ => (out, some (Error.io 7))

/-- A document with the hook `failingHook` that registers the deferred buffer
`D` and loops over `$xs` with a body that prints the raw bytes `$b` and
returns; `z` follows the loop. -/
def retErrDoc : Template :=
  .mk [.DeferElem [txt "D"],
       .ForElem 2 (var 2 "xs") (ascii "x") (ascii "i") 0
         [.VarFun (var 3 "b"), .ReturnElem] [],
       txt "z"] true (some failingHook)

/-- A context whose `xs` is a one-element sequence and whose `b` is a raw byte
value. -/
def retErrCtx : List Value :=
  [scope [("xs", .slice [.int 1]), ("b", .bytes (ascii "v"))]]

/-- An escape hook that only appends to the sink (no hook at all counts). -/
def AppendOnly (f : Option EscapeFn) : Prop :=
  ∀ g, f = some g → ∀ (wr : Writer) (out txt : Bytes), out <+: (g wr out txt).1

/-- A value in which every template value, at any depth of its sequences, maps
and bound contexts, carries an escape hook that only appends. -/
inductive HooksAppend : Value → Prop where
  | invalid : HooksAppend Value.invalid
  | int (n : Int) : HooksAppend (Value.int n)
  | str (s : Bytes) : HooksAppend (Value.str s)
  | bytes (b : Bytes) : HooksAppend (Value.bytes b)
  | slice (xs : List Value) : (∀ x ∈ xs, HooksAppend x) → HooksAppend (Value.slice xs)
  | map (kvs : List (Value × Value)) :
      (∀ kv ∈ kvs, HooksAppend kv.1) → (∀ kv ∈ kvs, HooksAppend kv.2) →
      HooksAppend (Value.map kvs)
  | chan (items : List Value) :
      (∀ x ∈ items, HooksAppend x) → HooksAppend (Value.chan items)
  | ctxItself (ctx : List Value) :
      (∀ x ∈ ctx, HooksAppend x) → HooksAppend (Value.ctxItself ctx)
  | tpl (t : Template) : AppendOnly t.EscapeFunc → HooksAppend (Value.tpl t)
  | nested (t : Template) (ctx : List Value) :
      AppendOnly t.EscapeFunc → (∀ x ∈ ctx, HooksAppend x) →
      HooksAppend (Value.nested t ctx)
  | other (tag : Nat) : HooksAppend (Value.other tag)

/-- A host that hands out no template with another kind of hook: probing and
dereferencing a value whose hooks only append gives such a value. -/
def Host.KeepsHooks (h : Host) : Prop :=
  (∀ (s name_id : Value) (args : List Value) (fn : Bool),
    HooksAppend s → HooksAppend (h.getVarFun s name_id args fn).1) ∧
  (∀ v : Value, HooksAppend v → HooksAppend (h.dereference v))

/-- A sink that accepts `n` bytes in all and refuses, with the error `io 1`,
any write that would exceed them. -/
def limitedWriter (n : Nat) : Writer :=
  ⟨fun out p => if out.length + p.length ≤ n then none else some (Error.io 1)⟩

/-- A strict document that writes `x`, registers the deferred buffer `D` and
then resolves the unknown `$y` (line 3). -/
def failDoc : Template :=
  .mk [txt "x", .DeferElem [txt "D"], .VarFun (var 3 "y")] true none

/-- A conditional on `$x` (line 2) without comparator, with the branches `T`
and `F`. -/
def ifX : Element :=
  .IfElem 2 Cmp.if_nocmp (.varFun (var 2 "x")) .nil [txt "T"] [txt "F"]

/-- The conditional `$x == 1` (line 2), with the branches `T` and `F`. -/
def ifXeq1 : Element :=
  .IfElem 2 (Cmp.op 0) (.varFun (var 2 "x")) (.value (.int 1)) [txt "T"] [txt "F"]
/-- The conditional `$xs == 1` (line 4), comparing a sequence with a number,
with the branches `T` and `F`. -/
def ifSeqEq1 : Element :=
  .IfElem 4 (Cmp.op 0) (.varFun (var 4 "xs")) (.value (.int 1)) [txt "T"] [txt "F"]

/-- A one-segment path `$name` at line `ln` that is not escapable. -/
def rawVar (ln : Nat) (name : String) : VarFunElem :=
  .mk ln false false (.value (.str (ascii name))) [] none

/-- A template that prints `$n`. -/
def innerTpl : Template := .mk [.VarFun (var 1 "n")] false none

/-- The template `innerTpl` bound to a context of its own, in which `n` is
`in`. -/
def boundTpl : Value := innerTpl.Nested [scope [("n", .str (ascii "in"))]]

/-- A nested document that registers the deferred buffer `D`, writes `a`,
returns, and would write `b`. -/
def nestedDoc : Template :=
  .mk [.DeferElem [txt "D"], txt "a", .ReturnElem, txt "b"] false none

/-- An outer document that registers the deferred buffer `O`, prints the
template `$t` and writes `z`. -/
def outerDoc : Template :=
  .mk [.DeferElem [txt "O"], .VarFun (var 2 "t"), txt "z"] false none

/-- A strict document that writes `x`, prints the template `$t` and then
resolves the unknown `$y` (line 3). -/
def failAfterTpl : Template :=
  .mk [txt "x", .VarFun (var 2 "t"), .VarFun (var 3 "y")] true none

/-- A context whose `b` is the raw byte value `<a>`. -/
def ctxRaw : List Value := [scope [("b", .bytes (ascii "<a>"))]]

/-- A loop over the scalar `$s` with the element name `x` and the index name
`iter`, whose body prints `$x`; the empty-branch writes `e`. -/
def scalarLoop (iter : String) : Element :=
  .ForElem 1 (var 1 "s") (ascii "x") (ascii iter) 3 [.VarFun (var 1 "x")] [txt "e"]

/-- The five entities written by `WriteEscapedHtml`. -/
def entities : List Bytes := [esc_amp, esc_apos, esc_lt, esc_gt, esc_quot]

/-- One of the five entities starts at index `i` of `s`. -/
def EntityAt (s : Bytes) (i : Nat) : Prop := ∃ e ∈ entities, e <+: s.drop i

/-! ## Properties of `WriteEscapedHtml` -/

theorem Writer.Write_of_neverFails {wr : Writer} (hw : wr.NeverFails) (out p : Bytes) :
    wr.Write out p = (out ++ p, none) := by
  unfold Writer.Write
  rw [hw out p]

theorem escapeByteSpec_eq (bb : Nat) : escapeByteSpec bb = (escOf bb).getD [bb] := by
  have h1 : '&'.toNat = 38 := rfl
  have h2 : '\''.toNat = 39 := rfl
  have h3 : '<'.toNat = 60 := rfl
  have h4 : '>'.toNat = 62 := rfl
  have h5 : '"'.toNat = 34 := rfl
  unfold escapeByteSpec escOf
  rw [h1, h2, h3, h4, h5]
  split_ifs <;> rfl

theorem escapeSpec_nil : escapeSpec [] = [] := rfl

theorem escapeSpec_cons (bb : Nat) (rest : Bytes) :
    escapeSpec (bb :: rest) = escapeByteSpec bb ++ escapeSpec rest := by
  simp [escapeSpec]

theorem escapeSpec_append (a b : Bytes) :
    escapeSpec (a ++ b) = escapeSpec a ++ escapeSpec b := by
  simp [escapeSpec]

theorem escapeSpec_plain (a : Bytes) (ha : ∀ b ∈ a, escOf b = none) :
    escapeSpec a = a := by
  induction a with
  | nil => rfl
  | cons b a ih =>
    rw [escapeSpec_cons, escapeByteSpec_eq, ha b (by simp), ih (fun c hc => ha c (by simp [hc]))]
    rfl

theorem WriteEscapedHtml.loop_eq {wr : Writer} (hw : wr.NeverFails) (txt : Bytes) :
    ∀ (rest pre : Bytes) (last : Nat) (out : Bytes), txt = pre ++ rest →
      last ≤ pre.length → (∀ b ∈ pre.drop last, escOf b = none) →
      WriteEscapedHtml.loop wr txt rest pre.length last out
        = (out ++ pre.drop last ++ escapeSpec rest, none) := by
  intro rest
  induction rest with
  | nil =>
    intro pre last out htxt _ _
    simp only [WriteEscapedHtml.loop, Writer.Write_of_neverFails hw, subslice]
    simp [htxt, escapeSpec_nil]
  | cons bb rest ih =>
    intro pre last out htxt hlast hplain
    have htxt1 : txt = (pre ++ [bb]) ++ rest := by simp [htxt]
    have hlen : (pre ++ [bb]).length = pre.length + 1 := by simp
    rw [WriteEscapedHtml.loop]
    cases hesc : escOf bb with
    | none =>
      simp only []
      have h := ih (pre ++ [bb]) last out htxt1 (by rw [hlen]; omega) (by
        intro b hb
        rw [List.drop_append_of_le_length hlast] at hb
        rcases List.mem_append.mp hb with hb | hb
        · exact hplain b hb
        · simp at hb; rw [hb]; exact hesc)
      rw [hlen] at h
      rw [h, List.drop_append_of_le_length hlast, escapeSpec_cons, escapeByteSpec_eq, hesc]
      simp
    | some esc =>
      simp only [Writer.Write_of_neverFails hw]
      have h := ih (pre ++ [bb]) (pre.length + 1) (out ++ subslice txt last pre.length ++ esc)
        htxt1 (by rw [hlen]) (by rw [← hlen]; simp)
      rw [hlen] at h
      rw [h, escapeSpec_cons, escapeByteSpec_eq, hesc]
      have hs : subslice txt last pre.length = pre.drop last := by
        simp [subslice, htxt]
      have hd : List.drop (pre.length + 1) (pre ++ [bb]) = [] := by
        rw [← hlen]; simp
      rw [hs, hd]
      simp

/-- C1: on a sink whose writes never fail, `WriteEscapedHtml(wr, txt)` returns
no error and appends exactly the concatenation, over the bytes of `txt` in
order, of the entity of each of the five characters `&`, `'`, `<`, `>`, `"` and
of the byte itself for every other byte; in particular `&<>'"` between two
texts without these characters yields `&amp;&lt;&gt;&apos;&quot;` between the
same two texts. -/
theorem WriteEscapedHtml_spec (wr : Writer) (hw : wr.NeverFails) (out txt : Bytes) :
    WriteEscapedHtml wr out txt = (out ++ escapeSpec txt, none) ∧
    ∀ pre post : Bytes,
      (∀ b ∈ pre ++ post, b ≠ '&'.toNat ∧ b ≠ '\''.toNat ∧ b ≠ '<'.toNat ∧
        b ≠ '>'.toNat ∧ b ≠ '"'.toNat) →
      WriteEscapedHtml wr out (pre ++ ascii "&<>'\"" ++ post)
        = (out ++ (pre ++ ascii "&amp;&lt;&gt;&apos;&quot;" ++ post), none) := by
  have key : ∀ t : Bytes, WriteEscapedHtml wr out t = (out ++ escapeSpec t, none) := by
    intro t
    have h := WriteEscapedHtml.loop_eq hw t t [] 0 out (by simp) (by simp) (by simp)
    simpa [WriteEscapedHtml] using h
  refine ⟨key txt, ?_⟩
  intro pre post hplain
  have hp : ∀ b ∈ pre ++ post, escOf b = none := by
    intro b hb
    obtain ⟨h1, h2, h3, h4, h5⟩ := hplain b hb
    have e1 : '&'.toNat = 38 := rfl
    have e2 : '\''.toNat = 39 := rfl
    have e3 : '<'.toNat = 60 := rfl
    have e4 : '>'.toNat = 62 := rfl
    have e5 : '"'.toNat = 34 := rfl
    rw [e1] at h1; rw [e2] at h2; rw [e3] at h3; rw [e4] at h4; rw [e5] at h5
    simp [escOf, h1, h2, h3, h4, h5]
  rw [key, escapeSpec_append, escapeSpec_append,
    escapeSpec_plain pre (fun b hb => hp b (by simp [hb])),
    escapeSpec_plain post (fun b hb => hp b (by simp [hb]))]
  rfl

theorem WriteEscapedHtml_spec_witness :
    bytesBuffer.NeverFails ∧
    WriteEscapedHtml bytesBuffer [] (ascii "a&<>'\"b")
      = ([] ++ escapeSpec (ascii "a&<>'\"b"), none) :=
  ⟨fun _ _ => rfl,
   (WriteEscapedHtml_spec bytesBuffer (fun _ _ => rfl) [] (ascii "a&<>'\"b")).1⟩

/-! ## Deferred output -/

theorem flushDeferred_of_neverFails {wr : Writer} (hw : wr.NeverFails) :
    ∀ (bufs : List Bytes) (out : Bytes),
      flushDeferred wr bufs out = (out ++ bufs.flatten, none) := by
  intro bufs
  induction bufs with
  | nil => intro out; simp [flushDeferred]
  | cons b bufs ih =>
    intro out
    simp [flushDeferred, Writer.Write_of_neverFails hw, ih]

theorem Run_of_run (h : Host) (fuel : Nat) (tpl : Template) (wr : Writer)
    (out : Bytes) (ctx : List Value) (r : RunRes)
    (hrun : run h fuel tpl tpl.elems wr out [] ctx none = some r) :
    Run h (fuel + 1) tpl wr out ctx =
      match r.err with
      | some e => some (r.out, some e)
      | none => some (flushDeferred wr r.defer_out.reverse r.out) := by
  rw [Run, hrun]

theorem run_DeferElem (h : Host) (fuel : Nat) (tpl : Template) (wr : Writer)
    (out : Bytes) (d : List Bytes) (ctx : List Value) (err : Option Error)
    (blk rest : List Element) :
    run h (fuel + 1) tpl (Element.DeferElem blk :: rest) wr out d ctx err =
      match run h fuel tpl blk bytesBuffer [] d ctx none with
      | none => none
      | some r =>
        match r.err with
        | some e => some ⟨false, some e, out, r.defer_out⟩
        | none => run h fuel tpl rest wr out (r.defer_out ++ [r.out]) ctx none := by
  rw [run]

/-- C2: when the node walk of a document completes without error on a sink
that never fails, `Run` returns no error and leaves in the sink what the walk
wrote followed by the registered deferred buffers, last registered first; a
`DeferElem` writes nothing to the sink (its block renders into a buffer of its
own, which is appended to the registry); three deferred blocks rendering `a`,
`b`, `c` in that order yield the trailing output `c ++ b ++ a`. -/
theorem Run_deferred_reverse_order (h : Host) (fuel : Nat) (tpl : Template)
    (wr : Writer) (hw : wr.NeverFails) (out : Bytes) (ctx : List Value) :
    (∀ r : RunRes, run h fuel tpl tpl.elems wr out [] ctx none = some r →
      r.err = none →
      Run h (fuel + 1) tpl wr out ctx
        = some (r.out ++ r.defer_out.reverse.flatten, none)) ∧
    (∀ (blk rest : List Element) (d : List Bytes) (err : Option Error) (r1 : RunRes),
      run h fuel tpl blk bytesBuffer [] d ctx none = some r1 → r1.err = none →
      run h (fuel + 1) tpl (Element.DeferElem blk :: rest) wr out d ctx err
        = run h fuel tpl rest wr out (r1.defer_out ++ [r1.out]) ctx none) ∧
    (∀ (a b c pre : Bytes) (s : Bool) (f : Option EscapeFn),
      Run h (fuel + 9)
        (.mk [.TxtElem pre, .DeferElem [.TxtElem a], .DeferElem [.TxtElem b],
          .DeferElem [.TxtElem c]] s f) wr out ctx
        = some (out ++ pre ++ (c ++ b ++ a), none)) := by
  refine ⟨?_, ?_, ?_⟩
  · intro r hrun herr
    rw [Run_of_run h fuel tpl wr out ctx r hrun, herr]
    simp only []
    rw [flushDeferred_of_neverFails hw]
  · intro blk rest d err r1 hblk herr
    rw [run_DeferElem, hblk]
    simp only []
    rw [herr]
  · intro a b c pre s f
    have hb : ∀ (out p : Bytes), bytesBuffer.Write out p = (out ++ p, none) :=
      fun out p => Writer.Write_of_neverFails (fun _ _ => rfl) out p
    simp [Run, run, Template.elems, Writer.Write_of_neverFails hw, hb,
      flushDeferred_of_neverFails hw]

theorem Run_deferred_reverse_order_witness :
    bytesBuffer.NeverFails ∧
    Run sampleHost 9 (.mk [txt "x", .DeferElem [txt "A"], .DeferElem [txt "B"],
        .DeferElem [txt "C"], txt "y"] true none) bytesBuffer [] []
      = some (ascii "xy" ++ [ascii "C", ascii "B", ascii "A"].flatten, none) :=
  ⟨fun _ _ => rfl,
   (Run_deferred_reverse_order sampleHost 8
      (.mk [txt "x", .DeferElem [txt "A"], .DeferElem [txt "B"],
        .DeferElem [txt "C"], txt "y"] true none) bytesBuffer
      (fun _ _ => rfl) [] []).1
      ⟨false, none, ascii "xy", [ascii "A", ascii "B", ascii "C"]⟩ rfl rfl⟩

/-- The deferred-output registry is only appended to: what `run` and the loops
of the `ForElem` branch leave in `*defer_out` extends what they found. -/
theorem registry_grows (h : Host) : ∀ fuel : Nat,
    (∀ tpl elems wr out d ctx err r,
      run h fuel tpl elems wr out d ctx err = some r → d <+: r.defer_out) ∧
    (∀ tpl blk val iter inc wr ctx evs ii out d r,
      forSlice h fuel tpl blk val iter inc wr ctx evs ii out d = some r →
        d <+: r.defer_out) ∧
    (∀ tpl blk val iter wr ctx kvs out d r,
      forMap h fuel tpl blk val iter wr ctx kvs out d = some r →
        d <+: r.defer_out) ∧
    (∀ tpl blk val iter wr ctx items ii out d r,
      forChan h fuel tpl blk val iter wr ctx items ii out d = some r →
        d <+: r.1.defer_out) := by
  intro fuel
  induction fuel with
  | zero =>
    refine ⟨?_, ?_, ?_, ?_⟩ <;> intros <;> simp_all [run, forSlice, forMap, forChan]
  | succ fuel ih =>
    obtain ⟨ihRun, ihSlice, ihMap, ihChan⟩ := ih
    refine ⟨?_, ?_, ?_, ?_⟩
    · intro tpl elems wr out d ctx err r hr
      cases elems with
      | nil => simp [run] at hr; subst hr; exact List.prefix_refl _
      | cons va rest =>
        cases va with
        | TxtElem t =>
          rw [run] at hr
          split at hr
          · simp at hr; subst hr; exact List.prefix_refl _
          · exact ihRun _ _ _ _ _ _ _ _ hr
        | ReturnElem => simp [run] at hr; subst hr; exact List.prefix_refl _
        | DeferElem blk =>
          rw [run] at hr
          split at hr
          · simp at hr
          · rename_i r1 h1
            have p1 := ihRun _ _ _ _ _ _ _ _ h1
            split at hr
            · simp at hr; subst hr; exact p1
            · have p2 := ihRun _ _ _ _ _ _ _ _ hr
              exact p1.trans ((List.prefix_append _ _).trans p2)
        | VarFun el =>
          rw [run] at hr
          split at hr
          · simp at hr
          · simp at hr; subst hr; exact List.prefix_refl _
          · split at hr
            · exact ihRun _ _ _ _ _ _ _ _ hr
            · split at hr
              · simp at hr
              · simp at hr; subst hr; exact List.prefix_refl _
              · exact ihRun _ _ _ _ _ _ _ _ hr
            · split at hr
              · simp at hr
              · simp at hr; subst hr; exact List.prefix_refl _
              · exact ihRun _ _ _ _ _ _ _ _ hr
            · exact ihRun _ _ _ _ _ _ _ _ hr
            · exact ihRun _ _ _ _ _ _ _ _ hr
        | IfElem ln cmp a1 a2 tb fb =>
          rw [run] at hr
          split at hr
          · simp at hr
          · simp at hr; subst hr; exact List.prefix_refl _
          · simp only [] at hr
            split at hr
            · simp at hr
            · simp at hr; subst hr; exact List.prefix_refl _
            · split at hr
              · simp at hr
              · rename_i r1 h1
                have p1 := ihRun _ _ _ _ _ _ _ _ h1
                split at hr
                · simp at hr; subst hr; exact p1
                · exact p1.trans (ihRun _ _ _ _ _ _ _ _ hr)
        | ForElem ln arg val iter inc ib eb =>
          rw [run] at hr
          split at hr
          · simp at hr
          · simp at hr; subst hr; exact List.prefix_refl _
          · simp only [] at hr
            split at hr
            · simp at hr
            · rename_i r1 h1
              have p1 : d <+: r1.defer_out := by
                split at h1
                · split at h1
                  · exact ihSlice _ _ _ _ _ _ _ _ _ _ _ _ h1
                  · exact ihRun _ _ _ _ _ _ _ _ h1
                · split at h1
                  · split at h1
                    · split at h1
                      · simp at h1; subst h1; exact List.prefix_refl _
                      · exact ihMap _ _ _ _ _ _ _ _ _ _ h1
                    · exact ihRun _ _ _ _ _ _ _ _ h1
                  · simp at h1
                · split at h1
                  · split at h1
                    · simp at h1
                    · rename_i r2 ii2 h2
                      have p2 := ihChan _ _ _ _ _ _ _ _ _ _ _ h2
                      split at h1
                      · simp at h1; subst h1; exact p2
                      · split at h1
                        · exact p2.trans (ihRun _ _ _ _ _ _ _ _ h1)
                        · simp at h1; subst h1; exact p2
                  · simp at h1
                · exact ihRun _ _ _ _ _ _ _ _ h1
                · exact ihRun _ _ _ _ _ _ _ _ h1
              split at hr
              · simp at hr; subst hr; exact p1
              · exact p1.trans (ihRun _ _ _ _ _ _ _ _ hr)
    · intro tpl blk val iter inc wr ctx evs ii out d r hr
      cases evs with
      | nil => simp [forSlice] at hr; subst hr; exact List.prefix_refl _
      | cons ev evs =>
        rw [forSlice] at hr
        split at hr
        · simp at hr
        · rename_i r1 h1
          have p1 := ihRun _ _ _ _ _ _ _ _ h1
          split at hr
          · simp at hr; subst hr; exact p1
          · exact p1.trans (ihSlice _ _ _ _ _ _ _ _ _ _ _ _ hr)
    · intro tpl blk val iter wr ctx kvs out d r hr
      cases kvs with
      | nil => simp [forMap] at hr; subst hr; exact List.prefix_refl _
      | cons kv kvs =>
        rw [forMap] at hr
        split at hr
        · simp at hr
        · rename_i r1 h1
          have p1 := ihRun _ _ _ _ _ _ _ _ h1
          split at hr
          · simp at hr; subst hr; exact p1
          · exact p1.trans (ihMap _ _ _ _ _ _ _ _ _ _ hr)
    · intro tpl blk val iter wr ctx items ii out d r hr
      cases items with
      | nil => simp [forChan] at hr; subst hr; exact List.prefix_refl _
      | cons ev items =>
        rw [forChan] at hr
        split at hr
        · simp at hr
        · rename_i r1 h1
          have p1 := ihRun _ _ _ _ _ _ _ _ h1
          split at hr
          · simp at hr; subst hr; exact p1
          · exact p1.trans (ihChan _ _ _ _ _ _ _ _ _ _ _ hr)

/-! ## Early return -/

theorem forSlice_stop (h : Host) (fuel : Nat) (tpl : Template) (wr : Writer)
    (ctx : List Value) (ib : List Element) (val iter : Bytes) (inc : Int)
    (ev : Value) (evs : List Value) (ii : Nat) (out : Bytes) (d : List Bytes)
    (r : RunRes)
    (hbody : run h fuel tpl ib wr out d
      (ctx ++ [localCtx val iter (ifaceOf ev) (Value.int (wrapInt (ii + inc)))]) none = some r)
    (hstop : r.stop = true) :
    forSlice h (fuel + 1) tpl ib val iter inc wr ctx (ev :: evs) ii out d = some r := by
  rw [forSlice, hbody]
  simp [hstop]

theorem forSlice_nil_ret (h : Host) (fuel : Nat) (tpl : Template) (wr : Writer)
    (ctx : List Value) (ib : List Element) (val iter : Bytes) (inc : Int)
    (ii : Nat) (out : Bytes) (d : List Bytes) (r : RunRes)
    (hr : forSlice h fuel tpl ib val iter inc wr ctx [] ii out d = some r) :
    r.ret = false := by
  cases fuel with
  | zero => simp [forSlice] at hr
  | succ n => simp [forSlice] at hr; subst hr; rfl

theorem emit_quiet (tpl : Template) (hq : HookQuiet tpl.EscapeFunc) (wr : Writer)
    (hw : wr.NeverFails) (filt : Bool) (out txt : Bytes) :
    (emit tpl wr filt out txt).2 = none := by
  unfold emit
  split
  · split
    · rename_i f hf
      exact hq f hf wr hw out txt
    · rw [Writer.Write_of_neverFails hw]
  · rw [Writer.Write_of_neverFails hw]

/-- When neither the sink nor the escape hook fails, a walk that ends with
`ret = true` ends with no error: no failed output is pending at the
`ReturnElem`. -/
theorem ret_without_error (h : Host) (wr : Writer) (hw : wr.NeverFails) :
    ∀ fuel : Nat,
    (∀ tpl elems out d ctx r, HookQuiet tpl.EscapeFunc →
      run h fuel tpl elems wr out d ctx none = some r → r.ret = true → r.err = none) ∧
    (∀ tpl blk val iter inc ctx evs ii out d r, HookQuiet tpl.EscapeFunc →
      forSlice h fuel tpl blk val iter inc wr ctx evs ii out d = some r →
        r.ret = true → r.err = none) ∧
    (∀ tpl blk val iter ctx kvs out d r, HookQuiet tpl.EscapeFunc →
      forMap h fuel tpl blk val iter wr ctx kvs out d = some r →
        r.ret = true → r.err = none) ∧
    (∀ tpl blk val iter ctx items ii out d r, HookQuiet tpl.EscapeFunc →
      forChan h fuel tpl blk val iter wr ctx items ii out d = some r →
        r.1.ret = true → r.1.err = none) := by
  intro fuel
  induction fuel with
  | zero =>
    refine ⟨?_, ?_, ?_, ?_⟩ <;> intros <;> simp_all [run, forSlice, forMap, forChan]
  | succ fuel ih =>
    obtain ⟨ihRun, ihSlice, ihMap, ihChan⟩ := ih
    refine ⟨?_, ?_, ?_, ?_⟩
    · intro tpl elems out d ctx r hq hr hret
      cases elems with
      | nil => simp [run] at hr; subst hr; rfl
      | cons va rest =>
        cases va with
        | TxtElem t =>
          rw [run] at hr
          split at hr
          · simp at hr; subst hr; simp at hret
          · exact ihRun _ _ _ _ _ _ hq hr hret
        | ReturnElem => simp [run] at hr; subst hr; rfl
        | DeferElem blk =>
          rw [run] at hr
          split at hr
          · simp at hr
          · split at hr
            · simp at hr; subst hr; simp at hret
            · exact ihRun _ _ _ _ _ _ hq hr hret
        | VarFun el =>
          rw [run] at hr
          split at hr
          · simp at hr
          · simp at hr; subst hr; simp at hret
          · split at hr
            · exact ihRun _ _ _ _ _ _ hq hr hret
            · split at hr
              · simp at hr
              · simp at hr; subst hr; simp at hret
              · exact ihRun _ _ _ _ _ _ hq hr hret
            · split at hr
              · simp at hr
              · simp at hr; subst hr; simp at hret
              · exact ihRun _ _ _ _ _ _ hq hr hret
            · simp only [emit_quiet tpl hq wr hw] at hr
              exact ihRun _ _ _ _ _ _ hq hr hret
            · simp only [emit_quiet tpl hq wr hw] at hr
              exact ihRun _ _ _ _ _ _ hq hr hret
        | IfElem ln cmp a1 a2 tb fb =>
          rw [run] at hr
          split at hr
          · simp at hr
          · simp at hr; subst hr; simp at hret
          · simp only [] at hr
            split at hr
            · simp at hr
            · simp at hr; subst hr; simp at hret
            · split at hr
              · simp at hr
              · rename_i r1 h1
                split at hr
                · simp at hr; subst hr
                  exact ihRun _ _ _ _ _ _ hq h1 hret
                · exact ihRun _ _ _ _ _ _ hq hr hret
        | ForElem ln arg val iter inc ib eb =>
          rw [run] at hr
          split at hr
          · simp at hr
          · simp at hr; subst hr; simp at hret
          · simp only [] at hr
            split at hr
            · simp at hr
            · rename_i r1 h1
              have p1 : r1.ret = true → r1.err = none := by
                intro hr1
                split at h1
                · split at h1
                  · exact ihSlice _ _ _ _ _ _ _ _ _ _ _ hq h1 hr1
                  · exact ihRun _ _ _ _ _ _ hq h1 hr1
                · split at h1
                  · split at h1
                    · split at h1
                      · simp at h1; subst h1; simp at hr1
                      · exact ihMap _ _ _ _ _ _ _ _ _ hq h1 hr1
                    · exact ihRun _ _ _ _ _ _ hq h1 hr1
                  · simp at h1
                · split at h1
                  · split at h1
                    · simp at h1
                    · rename_i r2 ii2 h2
                      have p2 := ihChan _ _ _ _ _ _ _ _ _ _ hq h2
                      split at h1
                      · simp at h1; subst h1; exact p2 hr1
                      · split at h1
                        · exact ihRun _ _ _ _ _ _ hq h1 hr1
                        · simp at h1; subst h1; exact p2 hr1
                  · simp at h1
                · exact ihRun _ _ _ _ _ _ hq h1 hr1
                · exact ihRun _ _ _ _ _ _ hq h1 hr1
              split at hr
              · simp at hr; subst hr; exact p1 hret
              · exact ihRun _ _ _ _ _ _ hq hr hret
    · intro tpl blk val iter inc ctx evs ii out d r hq hr hret
      cases evs with
      | nil => simp [forSlice] at hr; subst hr; rfl
      | cons ev evs =>
        rw [forSlice] at hr
        split at hr
        · simp at hr
        · rename_i r1 h1
          split at hr
          · simp at hr; subst hr; exact ihRun _ _ _ _ _ _ hq h1 hret
          · exact ihSlice _ _ _ _ _ _ _ _ _ _ _ hq hr hret
    · intro tpl blk val iter ctx kvs out d r hq hr hret
      cases kvs with
      | nil => simp [forMap] at hr; subst hr; rfl
      | cons kv kvs =>
        rw [forMap] at hr
        split at hr
        · simp at hr
        · rename_i r1 h1
          split at hr
          · simp at hr; subst hr; exact ihRun _ _ _ _ _ _ hq h1 hret
          · exact ihMap _ _ _ _ _ _ _ _ _ hq hr hret
    · intro tpl blk val iter ctx items ii out d r hq hr hret
      cases items with
      | nil => simp [forChan] at hr; subst hr; rfl
      | cons ev items =>
        rw [forChan] at hr
        split at hr
        · simp at hr
        · rename_i r1 h1
          split at hr
          · simp at hr; subst hr; exact ihRun _ _ _ _ _ _ hq h1 hret
          · exact ihChan _ _ _ _ _ _ _ _ _ _ hq hr hret

/-- C3, counterexample: a `ReturnElem` reached in a loop body does not always
end the run without error.  The hook of `retErrDoc` fails on `$b`, the walk
goes on to the `ReturnElem`, which returns `ret = true` with that error, and
`Run` returns the error without writing the deferred buffer `D`. -/
theorem Return_with_pending_error :
    run sampleHost 8 retErrDoc retErrDoc.elems bytesBuffer [] [] retErrCtx none
      = some ⟨true, some (Error.io 7), [], [ascii "D"]⟩ ∧
    Run sampleHost 9 retErrDoc bytesBuffer [] retErrCtx = some ([], some (Error.io 7)) :=
  ⟨rfl, rfl⟩

/-- C3, amended: a `ReturnElem` makes the walk return `ret = true` at once.
When the body of a loop over a sequence returns so in some iteration, the loop
ends with the result of that body walk whatever elements remain (no further
iteration), the walk of the enclosing element list ends with that same result
whatever follows the loop (no sibling is executed), and the registry still
holds every buffer registered before.  When neither the sink nor the escape
hook fails, a walk that ends with `ret = true` has no error, and `Run` returns
nil after writing the registered buffers behind the output of the walk. -/
theorem Return_in_loop_body (h : Host) (fuel : Nat) (tpl : Template) (wr : Writer)
    (ctx : List Value) (ib : List Element) (val iter : Bytes) (inc : Int) :
    (∀ (rest : List Element) (out : Bytes) (d : List Bytes) (err : Option Error),
      run h (fuel + 1) tpl (Element.ReturnElem :: rest) wr out d ctx err
        = some ⟨true, err, out, d⟩) ∧
    (∀ (ev : Value) (evs : List Value) (ii : Nat) (out : Bytes) (d : List Bytes)
      (r : RunRes),
      run h fuel tpl ib wr out d
        (ctx ++ [localCtx val iter (ifaceOf ev) (Value.int (wrapInt (ii + inc)))]) none = some r →
      r.ret = true →
      forSlice h (fuel + 1) tpl ib val iter inc wr ctx (ev :: evs) ii out d = some r ∧
      d <+: r.defer_out) ∧
    (∀ (ln : Nat) (arg : VarFunElem) (eb rest : List Element) (out : Bytes)
      (d : List Bytes) (err : Option Error) (val0 : Value) (r : RunRes),
      execVarFun h (fuel + 1) arg ctx false = some (.ok val0) →
      (h.dereference val0).Kind = Kind.Slice →
      forSlice h (fuel + 1) tpl ib val iter inc wr ctx (h.dereference val0).items 0 out d
        = some r →
      r.ret = true →
      run h (fuel + 2) tpl (Element.ForElem ln arg val iter inc ib eb :: rest) wr out d ctx err
        = some r ∧
      d <+: r.defer_out) ∧
    (wr.NeverFails → HookQuiet tpl.EscapeFunc → ∀ (out : Bytes) (r : RunRes),
      run h fuel tpl tpl.elems wr out [] ctx none = some r →
      r.ret = true →
      r.err = none ∧
      Run h (fuel + 1) tpl wr out ctx
        = some (r.out ++ r.defer_out.reverse.flatten, none)) := by
  refine ⟨?_, ?_, ?_, ?_⟩
  · intro rest out d err
    rw [run]
  · intro ev evs ii out d r hbody hret
    exact ⟨forSlice_stop h fuel tpl wr ctx ib val iter inc ev evs ii out d r hbody
      (by simp [RunRes.stop, hret]), (registry_grows h fuel).1 _ _ _ _ _ _ _ _ hbody⟩
  · intro ln arg eb rest out d err val0 r hsrc hkind hloop hret
    have hne : (h.dereference val0).items.length ≠ 0 := by
      intro h0
      have hnil : (h.dereference val0).items = [] := List.length_eq_zero.mp h0
      rw [hnil] at hloop
      have := forSlice_nil_ret h _ tpl wr ctx ib val iter inc 0 out d r hloop
      rw [hret] at this
      exact Bool.noConfusion this
    refine ⟨?_, (registry_grows h (fuel + 1)).2.1 _ _ _ _ _ _ _ _ _ _ _ _ hloop⟩
    rw [run, hsrc]
    simp only [hkind]
    rw [if_pos hne, hloop]
    simp [RunRes.stop, hret]
  · intro hw hq out r hrun hret
    have herr : r.err = none := (ret_without_error h wr hw fuel).1 _ _ _ _ _ _ hq hrun hret
    refine ⟨herr, ?_⟩
    rw [Run_of_run h fuel tpl wr out ctx r hrun, herr]
    simp only []
    rw [flushDeferred_of_neverFails hw]

theorem Return_in_loop_body_witness :
    bytesBuffer.NeverFails ∧
    Run sampleHost 8 returnDoc bytesBuffer [] returnCtx = some (ascii "aD", none) ∧
    run sampleHost 7 returnDoc
        [.ForElem 2 (var 2 "xs") (ascii "x") (ascii "i") 0
          [txt "a", .ReturnElem, txt "b"] [txt "e"], txt "z"]
        bytesBuffer [] [ascii "D"] returnCtx none
      = some ⟨true, none, ascii "a", [ascii "D"]⟩ :=
  ⟨fun _ _ => rfl,
   ((Return_in_loop_body sampleHost 7 returnDoc bytesBuffer returnCtx [] [] [] 0).2.2.2
     (fun _ _ => rfl) (fun g hg => by cases hg) []
     ⟨true, none, ascii "a", [ascii "D"]⟩ rfl rfl).2,
   ((Return_in_loop_body sampleHost 5 returnDoc bytesBuffer returnCtx
      [txt "a", .ReturnElem, txt "b"] (ascii "x") (ascii "i") 0).2.2.1
      2 (var 2 "xs") [txt "e"] [txt "z"] [] [ascii "D"] none
      (.slice [.int 1, .int 2, .int 3]) ⟨true, none, ascii "a", [ascii "D"]⟩
      rfl rfl rfl rfl).1⟩

/-! ## Propagation of `ret` -/

theorem run_nil_ret (h : Host) (fuel : Nat) (tpl : Template) (wr : Writer)
    (out : Bytes) (d : List Bytes) (ctx : List Value) (err : Option Error) (r : RunRes)
    (hr : run h fuel tpl [] wr out d ctx err = some r) : r.ret = false := by
  cases fuel with
  | zero => simp [run] at hr
  | succ n => simp [run] at hr; subst hr; rfl

theorem run_ret_skips_rest (h : Host) (fuel : Nat) (tpl : Template) (wr : Writer)
    (out : Bytes) (d : List Bytes) (ctx : List Value) (err : Option Error)
    (el : Element) (r : RunRes)
    (hr : run h fuel tpl [el] wr out d ctx err = some r) (hret : r.ret = true)
    (rest : List Element) :
    run h fuel tpl (el :: rest) wr out d ctx err = some r := by
  cases fuel with
  | zero => simp [run] at hr
  | succ n =>
    have nil_absurd : ∀ {out d err}, run h n tpl [] wr out d ctx err = some r → False := by
      intro out d err h0
      have := run_nil_ret h n tpl wr out d ctx err r h0
      rw [hret] at this
      exact Bool.noConfusion this
    cases el with
    | TxtElem t =>
      rw [run] at hr
      split at hr
      · simp at hr; subst hr; simp at hret
      · exact (nil_absurd hr).elim
    | ReturnElem => rw [run] at hr ⊢; exact hr
    | DeferElem blk =>
      rw [run] at hr
      split at hr
      · simp at hr
      · split at hr
        · simp at hr; subst hr; simp at hret
        · exact (nil_absurd hr).elim
    | VarFun el =>
      rw [run] at hr
      split at hr
      · simp at hr
      · simp at hr; subst hr; simp at hret
      · split at hr
        · exact (nil_absurd hr).elim
        · split at hr
          · simp at hr
          · simp at hr; subst hr; simp at hret
          · exact (nil_absurd hr).elim
        · split at hr
          · simp at hr
          · simp at hr; subst hr; simp at hret
          · exact (nil_absurd hr).elim
        · exact (nil_absurd hr).elim
        · exact (nil_absurd hr).elim
    | IfElem ln cmp a1 a2 tb fb =>
      rw [run] at hr ⊢
      split at hr
      · simp at hr
      · simp at hr; subst hr; simp at hret
      · simp only [] at hr ⊢
        split at hr
        · simp at hr
        · simp at hr; subst hr; simp at hret
        · split at hr
          · simp at hr
          · split at hr
            · simp_all
            · exact (nil_absurd hr).elim
    | ForElem ln arg val iter inc ib eb =>
      rw [run] at hr ⊢
      split at hr
      · simp at hr
      · simp at hr; subst hr; simp at hret
      · simp only [] at hr ⊢
        split at hr
        · simp at hr
        · split at hr
          · simp_all
          · exact (nil_absurd hr).elim

theorem forMap_stop (h : Host) (fuel : Nat) (tpl : Template) (wr : Writer)
    (ctx : List Value) (ib : List Element) (val iter : Bytes)
    (kv : Value × Value) (kvs : List (Value × Value)) (out : Bytes) (d : List Bytes)
    (r : RunRes)
    (hbody : run h fuel tpl ib wr out d
      (ctx ++ [localCtx val iter (ifaceOf kv.2) kv.1]) none = some r)
    (hstop : r.stop = true) :
    forMap h (fuel + 1) tpl ib val iter wr ctx (kv :: kvs) out d = some r := by
  rw [forMap, hbody]
  simp [hstop]

theorem forChan_stop (h : Host) (fuel : Nat) (tpl : Template) (wr : Writer)
    (ctx : List Value) (ib : List Element) (val iter : Bytes)
    (ev : Value) (items : List Value) (ii : Int) (out : Bytes) (d : List Bytes)
    (r : RunRes)
    (hbody : run h fuel tpl ib wr out d
      (ctx ++ [localCtx val iter (ifaceOf ev) (Value.int ii)]) none = some r)
    (hstop : r.stop = true) :
    forChan h (fuel + 1) tpl ib val iter wr ctx (ev :: items) ii out d = some (r, ii) := by
  rw [forChan, hbody]
  simp [hstop]

/-- The result of a `ForElem` whose source selects `else_block`. -/
theorem run_ForElem_empty (h : Host) (fuel : Nat) (tpl : Template) (wr : Writer)
    (ctx : List Value) (ib eb rest : List Element) (val iter : Bytes) (inc : Int)
    (ln : Nat) (arg : VarFunElem) (out : Bytes) (d : List Bytes) (err : Option Error)
    (val0 : Value)
    (hsrc : execVarFun h (fuel + 1) arg ctx false = some (.ok val0))
    (hempty : EmptySource (h.dereference val0)) :
    run h (fuel + 2) tpl (Element.ForElem ln arg val iter inc ib eb :: rest) wr out d ctx err
      = match run h (fuel + 1) tpl eb wr out d ctx none with
        | none => none
        | some r =>
          if r.stop then some r
          else run h (fuel + 1) tpl rest wr r.out r.defer_out ctx none := by
  rw [run, hsrc]
  simp only []
  rcases hempty with ⟨hk, hi⟩ | hm | hc | hk
  · simp only [hk, hi]
    simp
  · rw [hm]
    simp [Value.Kind]
  · rw [hc]
    simp [Value.Kind, forChan, RunRes.stop]
  · simp only [hk]

/-- The result of a `ForElem` whose source is a non-empty array or slice. -/
theorem run_ForElem_slice (h : Host) (fuel : Nat) (tpl : Template) (wr : Writer)
    (ctx : List Value) (ib eb rest : List Element) (val iter : Bytes) (inc : Int)
    (ln : Nat) (arg : VarFunElem) (out : Bytes) (d : List Bytes) (err : Option Error)
    (val0 : Value)
    (hsrc : execVarFun h (fuel + 1) arg ctx false = some (.ok val0))
    (hkind : (h.dereference val0).Kind = Kind.Slice)
    (hne : (h.dereference val0).items ≠ []) :
    run h (fuel + 2) tpl (Element.ForElem ln arg val iter inc ib eb :: rest) wr out d ctx err
      = match forSlice h (fuel + 1) tpl ib val iter inc wr ctx
            (h.dereference val0).items 0 out d with
        | none => none
        | some r =>
          if r.stop then some r
          else run h (fuel + 1) tpl rest wr r.out r.defer_out ctx none := by
  rw [run, hsrc]
  simp only [hkind]
  rw [if_pos (by simpa using hne)]

/-- The result of a `ForElem` whose source is a non-empty map. -/
theorem run_ForElem_map (h : Host) (fuel : Nat) (tpl : Template) (wr : Writer)
    (ctx : List Value) (ib eb rest : List Element) (val iter : Bytes) (inc : Int)
    (ln : Nat) (arg : VarFunElem) (out : Bytes) (d : List Bytes) (err : Option Error)
    (val0 : Value) (kvs : List (Value × Value))
    (hsrc : execVarFun h (fuel + 1) arg ctx false = some (.ok val0))
    (hmap : h.dereference val0 = Value.map kvs) (hne : kvs ≠ []) :
    run h (fuel + 2) tpl (Element.ForElem ln arg val iter inc ib eb :: rest) wr out d ctx err
      = if inc ≠ 0 then
          some ⟨false, some (Error.RunErr ln Stat.RUN_INC_MAP_KEY), out, d⟩
        else
          match forMap h (fuel + 1) tpl ib val iter wr ctx kvs out d with
          | none => none
          | some r =>
            if r.stop then some r
            else run h (fuel + 1) tpl rest wr r.out r.defer_out ctx none := by
  rw [run, hsrc]
  simp only [hmap, Value.Kind]
  rw [if_pos (by simpa using hne)]
  by_cases hinc : inc = 0
  · simp [hinc]
  · simp [hinc, RunRes.stop]

/-- The result of a `ForElem` whose source is a channel that delivers at least
one value. -/
theorem run_ForElem_chan (h : Host) (fuel : Nat) (tpl : Template) (wr : Writer)
    (ctx : List Value) (ib eb rest : List Element) (val iter : Bytes) (inc : Int)
    (ln : Nat) (arg : VarFunElem) (out : Bytes) (d : List Bytes) (err : Option Error)
    (val0 : Value) (items : List Value) (r : RunRes) (ii : Int)
    (hsrc : execVarFun h (fuel + 1) arg ctx false = some (.ok val0))
    (hchan : h.dereference val0 = Value.chan items)
    (hloop : forChan h (fuel + 1) tpl ib val iter wr ctx items inc out d = some (r, ii))
    (hstop : r.stop = true) :
    run h (fuel + 2) tpl (Element.ForElem ln arg val iter inc ib eb :: rest) wr out d ctx err
      = some r := by
  rw [run, hsrc]
  simp only [hchan, Value.Kind, hloop]
  simp [hstop]

/-- The result of a `ForElem` whose source is a scalar other than nil. -/
theorem run_ForElem_scalar (h : Host) (fuel : Nat) (tpl : Template) (wr : Writer)
    (ctx : List Value) (ib eb rest : List Element) (val iter : Bytes) (inc : Int)
    (ln : Nat) (arg : VarFunElem) (out : Bytes) (d : List Bytes) (err : Option Error)
    (val0 : Value)
    (hsrc : execVarFun h (fuel + 1) arg ctx false = some (.ok val0))
    (hkind : (h.dereference val0).Kind = Kind.Scalar) :
    run h (fuel + 2) tpl (Element.ForElem ln arg val iter inc ib eb :: rest) wr out d ctx err
      = match run h (fuel + 1) tpl ib wr out d
            (ctx ++ [Value.map (mapSet (mapSet [] val (h.dereference val0)) iter
              Value.invalid)]) none with
        | none => none
        | some r =>
          if r.stop then some r
          else run h (fuel + 1) tpl rest wr r.out r.defer_out ctx none := by
  rw [run, hsrc]
  simp only [hkind]

/-- The result of an `IfElem` once its condition is evaluated to `tf`. -/
theorem run_IfElem (h : Host) (fuel : Nat) (tpl : Template) (wr : Writer)
    (ctx : List Value) (ln : Nat) (cmp : Cmp) (arg1 arg2 : Param)
    (tb fb rest : List Element) (out : Bytes) (d : List Bytes) (err : Option Error)
    (v1 v2 : Value) (tf : Bool)
    (h1 : execParam h fuel arg1 ctx ln (cmp != Cmp.if_nocmp) = some (.ok v1))
    (hcond : (cmp = Cmp.if_nocmp ∧ tf = h.getBool v1) ∨
      (cmp ≠ Cmp.if_nocmp ∧ execParam h fuel arg2 ctx ln true = some (.ok v2) ∧
        h.getCmp v1 v2 cmp = (tf, Stat.RUN_OK))) :
    run h (fuel + 1) tpl (Element.IfElem ln cmp arg1 arg2 tb fb :: rest) wr out d ctx err
      = match run h fuel tpl (if tf then tb else fb) wr out d ctx none with
        | none => none
        | some r =>
          if r.stop then some r
          else run h fuel tpl rest wr r.out r.defer_out ctx none := by
  rw [run, h1]
  rcases hcond with ⟨hc, htf⟩ | ⟨hc, h2, hcmp⟩
  · simp only [hc, htf, if_true]
  · simp only [hc, if_false, h2, hcmp]
    simp

/-- C4, counterexample: a `ReturnElem` inside a deferred block does not
propagate.  The walk of the block `[Return, "d"]` returns `ret = true`, yet the
walk of `[Defer [Return, "d"], "x"]` goes on with the sibling `"x"`, writes it
and ends with `ret = false`. -/
theorem Return_in_deferred_block_not_propagated :
    run sampleHost 2 (.mk [] true none) [.ReturnElem, txt "d"] bytesBuffer [] [] [] none
      = some ⟨true, none, [], []⟩ ∧
    run sampleHost 3 (.mk [] true none) [.DeferElem [.ReturnElem, txt "d"], txt "x"]
        bytesBuffer [] [] [] none
      = some ⟨false, none, ascii "x", [[]]⟩ ∧
    Run sampleHost 4 (.mk [.DeferElem [.ReturnElem, txt "d"], txt "x"] true none)
        bytesBuffer [] []
      = some (ascii "x", none) :=
  ⟨rfl, rfl, rfl⟩

/-- C4, amended: a `ReturnElem` makes the walk return `ret = true` at once, and
`ret = true` propagates through every enclosing conditional branch, loop body
and empty-branch: a walk whose first element returns `ret = true` has that
result whatever siblings follow; a conditional whose selected branch returns,
a loop over a sequence, a map or a channel whose body returns in some
iteration (whatever elements remain), a loop over a scalar whose body returns
and a loop whose empty-branch returns all end the enclosing walk with that
same result.  A deferred block does not propagate it: whatever `ret` its walk
gives, its buffer is registered and the walk goes on with the next sibling. -/
theorem Return_propagates (h : Host) (fuel : Nat) (tpl : Template) (wr : Writer)
    (ctx : List Value) (rest : List Element) (out : Bytes) (d : List Bytes)
    (err : Option Error) (r : RunRes) (hret : r.ret = true) :
    run h (fuel + 1) tpl (Element.ReturnElem :: rest) wr out d ctx err
      = some ⟨true, err, out, d⟩ ∧
    (∀ el : Element, run h fuel tpl [el] wr out d ctx err = some r →
      run h fuel tpl (el :: rest) wr out d ctx err = some r) ∧
    (∀ (ln : Nat) (cmp : Cmp) (arg1 arg2 : Param) (tb fb : List Element)
      (v1 v2 : Value) (tf : Bool),
      execParam h fuel arg1 ctx ln (cmp != Cmp.if_nocmp) = some (.ok v1) →
      ((cmp = Cmp.if_nocmp ∧ tf = h.getBool v1) ∨
        (cmp ≠ Cmp.if_nocmp ∧ execParam h fuel arg2 ctx ln true = some (.ok v2) ∧
          h.getCmp v1 v2 cmp = (tf, Stat.RUN_OK))) →
      run h fuel tpl (if tf then tb else fb) wr out d ctx none = some r →
      run h (fuel + 1) tpl (Element.IfElem ln cmp arg1 arg2 tb fb :: rest) wr out d ctx err
        = some r) ∧
    (∀ (ib : List Element) (val iter : Bytes) (inc : Int),
      (∀ (ev : Value) (evs : List Value) (ii : Nat),
        run h fuel tpl ib wr out d
          (ctx ++ [localCtx val iter (ifaceOf ev) (Value.int (wrapInt (ii + inc)))]) none = some r →
        forSlice h (fuel + 1) tpl ib val iter inc wr ctx (ev :: evs) ii out d = some r) ∧
      (∀ (kv : Value × Value) (kvs : List (Value × Value)),
        run h fuel tpl ib wr out d
          (ctx ++ [localCtx val iter (ifaceOf kv.2) kv.1]) none = some r →
        forMap h (fuel + 1) tpl ib val iter wr ctx (kv :: kvs) out d = some r) ∧
      (∀ (ev : Value) (items : List Value) (ii : Int),
        run h fuel tpl ib wr out d
          (ctx ++ [localCtx val iter (ifaceOf ev) (Value.int ii)]) none = some r →
        forChan h (fuel + 1) tpl ib val iter wr ctx (ev :: items) ii out d
          = some (r, ii)) ∧
      (∀ (ln : Nat) (arg : VarFunElem) (eb : List Element) (val0 : Value),
        execVarFun h (fuel + 1) arg ctx false = some (.ok val0) →
        ((h.dereference val0).Kind = Kind.Slice ∧
            forSlice h (fuel + 1) tpl ib val iter inc wr ctx
              (h.dereference val0).items 0 out d = some r) ∨
          (∃ kvs, h.dereference val0 = Value.map kvs ∧ inc = 0 ∧
            forMap h (fuel + 1) tpl ib val iter wr ctx kvs out d = some r) ∨
          (∃ items ii, h.dereference val0 = Value.chan items ∧
            forChan h (fuel + 1) tpl ib val iter wr ctx items inc out d = some (r, ii)) ∨
          ((h.dereference val0).Kind = Kind.Scalar ∧
            run h (fuel + 1) tpl ib wr out d
              (ctx ++ [Value.map (mapSet (mapSet [] val (h.dereference val0)) iter
                Value.invalid)]) none = some r) ∨
          (EmptySource (h.dereference val0) ∧
            run h (fuel + 1) tpl eb wr out d ctx none = some r) →
        run h (fuel + 2) tpl (Element.ForElem ln arg val iter inc ib eb :: rest)
          wr out d ctx err = some r)) ∧
    (∀ (blk : List Element) (r1 : RunRes),
      run h fuel tpl blk bytesBuffer [] d ctx none = some r1 → r1.err = none →
      run h (fuel + 1) tpl (Element.DeferElem blk :: rest) wr out d ctx err
        = run h fuel tpl rest wr out (r1.defer_out ++ [r1.out]) ctx none) := by
  have hstop : r.stop = true := by simp [RunRes.stop, hret]
  refine ⟨by rw [run], ?_, ?_, ?_, ?_⟩
  · intro el hr
    exact run_ret_skips_rest h fuel tpl wr out d ctx err el r hr hret rest
  · intro ln cmp arg1 arg2 tb fb v1 v2 tf h1 hcond hblk
    rw [run_IfElem h fuel tpl wr ctx ln cmp arg1 arg2 tb fb rest out d err v1 v2 tf h1 hcond,
      hblk]
    simp [hstop]
  · intro ib val iter inc
    refine ⟨?_, ?_, ?_, ?_⟩
    · intro ev evs ii hbody
      exact forSlice_stop h fuel tpl wr ctx ib val iter inc ev evs ii out d r hbody hstop
    · intro kv kvs hbody
      exact forMap_stop h fuel tpl wr ctx ib val iter kv kvs out d r hbody hstop
    · intro ev items ii hbody
      exact forChan_stop h fuel tpl wr ctx ib val iter ev items ii out d r hbody hstop
    · intro ln arg eb val0 hsrc hcases
      rcases hcases with ⟨hk, hl⟩ | ⟨kvs, hm, hinc, hl⟩ | ⟨items, ii, hc, hl⟩ | ⟨hk, hl⟩ |
        ⟨he, hl⟩
      · have hne : (h.dereference val0).items ≠ [] := by
          intro hnil
          rw [hnil] at hl
          have := forSlice_nil_ret h _ tpl wr ctx ib val iter inc 0 out d r hl
          rw [hret] at this
          exact Bool.noConfusion this
        rw [run_ForElem_slice h fuel tpl wr ctx ib eb rest val iter inc ln arg out d err
          val0 hsrc hk hne, hl]
        simp [hstop]
      · have hne : kvs ≠ [] := by
          intro hnil
          rw [hnil] at hl
          simp [forMap] at hl
          rw [← hl] at hret
          simp at hret
        rw [run_ForElem_map h fuel tpl wr ctx ib eb rest val iter inc ln arg out d err
          val0 kvs hsrc hm hne, hl]
        simp [hstop, hinc]
      · exact run_ForElem_chan h fuel tpl wr ctx ib eb rest val iter inc ln arg out d err
          val0 items r ii hsrc hc hl hstop
      · rw [run_ForElem_scalar h fuel tpl wr ctx ib eb rest val iter inc ln arg out d err
          val0 hsrc hk, hl]
        simp [hstop]
      · rw [run_ForElem_empty h fuel tpl wr ctx ib eb rest val iter inc ln arg out d err
          val0 hsrc he, hl]
        simp [hstop]
  · intro blk r1 hblk herr
    rw [run_DeferElem, hblk]
    simp only []
    rw [herr]

theorem Return_propagates_witness :
    (⟨true, none, ascii "a", [ascii "D"]⟩ : RunRes).ret = true ∧
    run sampleHost 7 returnDoc
        [.ForElem 2 (var 2 "xs") (ascii "x") (ascii "i") 0
          [txt "a", .ReturnElem, txt "b"] [txt "e"], txt "z"]
        bytesBuffer [] [ascii "D"] returnCtx none
      = some ⟨true, none, ascii "a", [ascii "D"]⟩ ∧
    run sampleHost 8 returnDoc
        [.IfElem 1 Cmp.if_nocmp (.varFun (var 1 "xs")) .nil
          [txt "a", .ReturnElem, txt "b"] [txt "e"], txt "z"]
        bytesBuffer [] [ascii "D"] returnCtx none
      = some ⟨true, none, ascii "a", [ascii "D"]⟩ :=
  ⟨rfl,
   (Return_propagates sampleHost 7 returnDoc bytesBuffer returnCtx [txt "z"] []
      [ascii "D"] none ⟨true, none, ascii "a", [ascii "D"]⟩ rfl).2.1
      (.ForElem 2 (var 2 "xs") (ascii "x") (ascii "i") 0
        [txt "a", .ReturnElem, txt "b"] [txt "e"]) rfl,
   (Return_propagates sampleHost 7 returnDoc bytesBuffer returnCtx [txt "z"] []
      [ascii "D"] none ⟨true, none, ascii "a", [ascii "D"]⟩ rfl).2.2.1
      1 Cmp.if_nocmp (.varFun (var 1 "xs")) .nil [txt "a", .ReturnElem, txt "b"]
      [txt "e"] (.slice [.int 1, .int 2, .int 3]) .invalid true rfl
      (Or.inl ⟨rfl, rfl⟩) rfl⟩

/-! ## Resolution of the first segment -/

/-- The first segment probes no scope that lies outside the innermost scope
whose probe succeeds. -/
theorem searchCtx_found (h : Host) (name_id : Value) (args : List Value) (fn : Bool)
    (s : Value) (v : Value)
    (hs : h.getVarFun s name_id args fn = (v, Stat.RUN_OK)) :
    ∀ (inner outer : List Value) (acc : Value × Stat),
      (∀ t ∈ inner, (h.getVarFun t name_id args fn).2 ≠ Stat.RUN_OK) →
      searchCtx h name_id args fn (inner ++ s :: outer) acc = (v, Stat.RUN_OK) := by
  intro inner
  induction inner with
  | nil =>
    intro outer acc _
    simp [searchCtx, hs]
  | cons t inner ih =>
    intro outer acc hfail
    have ht : (h.getVarFun t name_id args fn).2 ≠ Stat.RUN_OK := hfail t (by simp)
    simp only [List.cons_append, searchCtx, if_neg ht]
    exact ih outer _ (fun u hu => hfail u (by simp [hu]))

/-- When every probe fails, the search ends with the result of the last probe,
that of the outermost scope. -/
theorem searchCtx_all_fail (h : Host) (name_id : Value) (args : List Value) (fn : Bool) :
    ∀ (scopes : List Value) (s : Value) (acc : Value × Stat),
      (∀ t ∈ scopes ++ [s], (h.getVarFun t name_id args fn).2 ≠ Stat.RUN_OK) →
      searchCtx h name_id args fn (scopes ++ [s]) acc = h.getVarFun s name_id args fn := by
  intro scopes
  induction scopes with
  | nil =>
    intro s acc hfail
    have hs := hfail s (by simp)
    simp [searchCtx, hs]
  | cons t scopes ih =>
    intro s acc hfail
    have ht : (h.getVarFun t name_id args fn).2 ≠ Stat.RUN_OK := hfail t (by simp)
    simp only [List.cons_append, searchCtx, if_neg ht]
    exact ih s _ (fun u hu => hfail u (by simp at hu ⊢; tauto))

/-- The body of `execVarFun` once the keys of the path and the arguments of
the first segment are evaluated. -/
theorem execVarFun_eq (h : Host) (fuel : Nat) (vf : VarFunElem) (ctx : List Value)
    (strict : Bool) (name_id : Value) (names args : List Value)
    (hpath : pathNames h fuel (some vf) ctx = some (.ok (name_id :: names)))
    (hargs : execArgs h fuel vf.args ctx vf.ln = some (.ok args)) :
    execVarFun h (fuel + 1) vf ctx strict =
      if name_id.IsValid || vf.fn then
        if (searchCtx h name_id args vf.fn ctx.reverse (Value.invalid, Stat.RUN_OK)).2
            ≠ Stat.RUN_OK then
          if strict then
            some (.error (Error.RunErr vf.ln
              (searchCtx h name_id args vf.fn ctx.reverse (Value.invalid, Stat.RUN_OK)).2))
          else
            some (.ok
              (searchCtx h name_id args vf.fn ctx.reverse (Value.invalid, Stat.RUN_OK)).1)
        else
          restPath h fuel
            (searchCtx h name_id args vf.fn ctx.reverse (Value.invalid, Stat.RUN_OK)).1
            names vf ctx strict
      else restPath h fuel (Value.ctxItself ctx) names vf ctx strict := by
  rw [execVarFun, hpath, hargs]

/-- The keys of a one-segment path with a literal key. -/
theorem pathNames_literal (h : Host) (fuel : Nat) (ln : Nat) (filt fn : Bool)
    (key : Value) (args : List Param) (ctx : List Value) :
    pathNames h (fuel + 2) (some (.mk ln filt fn (.value key) args none)) ctx
      = some (.ok [key]) := by
  simp [pathNames, VarFunElem.name, VarFunElem.next]

/-- C5, the failing case: with an empty context stack the search loop makes no
probe and `stat` keeps its initial value `RUN_OK`, so a strict resolution of an
unprovided key returns no value and no error whatever the host, and `Run` of a
strict document made of that node returns nil and writes nothing. -/
theorem strict_unresolved_empty_ctx (h : Host) (fuel ln : Nat) (filt : Bool)
    (key : Bytes) :
    execVarFun h (fuel + 3) (.mk ln filt false (.value (.str key)) [] none) [] true
      = some (.ok Value.invalid) ∧
    Run sampleHost 5 (.mk [.VarFun (var 3 "x")] true none) bytesBuffer [] []
      = some ([], none) := by
  refine ⟨?_, rfl⟩
  rw [execVarFun_eq h (fuel + 2) _ [] true (.str key) [] []
    (pathNames_literal h fuel ln filt false (.str key) [] [])
    (by simp [execArgs, VarFunElem.args])]
  simp [searchCtx, Value.IsValid, restPath]

/-- With a non-empty context stack in which every probe of the first segment
fails, the search ends with the status of the outermost scope. -/
theorem searchCtx_unresolved (h : Host) (name_id : Value) (args : List Value) (fn : Bool)
    (c0 : Value) (ctx : List Value)
    (hfail : ∀ s ∈ c0 :: ctx, (h.getVarFun s name_id args fn).2 ≠ Stat.RUN_OK) :
    searchCtx h name_id args fn (c0 :: ctx).reverse (Value.invalid, Stat.RUN_OK)
      = h.getVarFun c0 name_id args fn := by
  rw [List.reverse_cons]
  exact searchCtx_all_fail h name_id args fn ctx.reverse c0 _
    (fun t ht => hfail t (by simp at ht ⊢; tauto))

/-- Strict resolution over a non-empty context stack: when no scope provides
the first segment, `execVarFun` returns a `RunErr` with the line of the node and
the status of the last probe, the node writes nothing and `Run` returns that
error. -/
theorem execVarFun_strict_unresolved (h : Host) (fuel : Nat) (vf : VarFunElem)
    (c0 : Value) (ctx : List Value) (name_id : Value) (names args : List Value)
    (hpath : pathNames h fuel (some vf) (c0 :: ctx) = some (.ok (name_id :: names)))
    (hargs : execArgs h fuel vf.args (c0 :: ctx) vf.ln = some (.ok args))
    (hkey : (name_id.IsValid || vf.fn) = true)
    (hfail : ∀ s ∈ c0 :: ctx, (h.getVarFun s name_id args vf.fn).2 ≠ Stat.RUN_OK) :
    execVarFun h (fuel + 1) vf (c0 :: ctx) true
      = some (.error (Error.RunErr vf.ln (h.getVarFun c0 name_id args vf.fn).2)) ∧
    (∀ (tpl : Template) (rest : List Element) (wr : Writer) (out : Bytes)
      (d : List Bytes) (err : Option Error), tpl.Strict = true →
      run h (fuel + 2) tpl (.VarFun vf :: rest) wr out d (c0 :: ctx) err
        = some ⟨false, some (Error.RunErr vf.ln (h.getVarFun c0 name_id args vf.fn).2),
            out, d⟩) ∧
    (∀ (f : Option EscapeFn) (rest : List Element) (wr : Writer) (out : Bytes),
      Run h (fuel + 3) (.mk (.VarFun vf :: rest) true f) wr out (c0 :: ctx)
        = some (out, some (Error.RunErr vf.ln (h.getVarFun c0 name_id args vf.fn).2))) := by
  have h1 : execVarFun h (fuel + 1) vf (c0 :: ctx) true
      = some (.error (Error.RunErr vf.ln (h.getVarFun c0 name_id args vf.fn).2)) := by
    rw [execVarFun_eq h fuel vf _ true name_id names args hpath hargs, if_pos hkey,
      searchCtx_unresolved h name_id args vf.fn c0 ctx hfail,
      if_pos (hfail c0 (by simp))]
    simp
  have h2 : ∀ (tpl : Template) (rest : List Element) (wr : Writer) (out : Bytes)
      (d : List Bytes) (err : Option Error), tpl.Strict = true →
      run h (fuel + 2) tpl (.VarFun vf :: rest) wr out d (c0 :: ctx) err
        = some ⟨false, some (Error.RunErr vf.ln (h.getVarFun c0 name_id args vf.fn).2),
            out, d⟩ := by
    intro tpl rest wr out d err hs
    rw [run]
    simp only [hs, h1]
  refine ⟨h1, h2, ?_⟩
  intro f rest wr out
  rw [Run]
  simp only [Template.elems]
  rw [h2 (.mk (.VarFun vf :: rest) true f) rest wr out [] none rfl]

/-- C6: under non-strict resolution, when the first segment has a key or is a
call and its probe fails in every scope of the context stack, with whatever
status codes, `execVarFun` returns no error, and its value is the zero value
that the failed probes return; a `VarFunElem` resolved this way in a document
with `Strict = false` leaves the sink and the registry as they are, and the
walk goes on with the next element.  (For an empty stack, where no probe is
made at all, this is stated for a one-segment path.) -/
theorem execVarFun_nonstrict_unresolved (h : Host) (fuel : Nat) (vf : VarFunElem)
    (ctx : List Value) (name_id : Value) (names args : List Value)
    (hpath : pathNames h (fuel + 1) (some vf) ctx = some (.ok (name_id :: names)))
    (hargs : execArgs h (fuel + 1) vf.args ctx vf.ln = some (.ok args))
    (hkey : (name_id.IsValid || vf.fn) = true)
    (hfail : ∀ s ∈ ctx, (h.getVarFun s name_id args vf.fn).2 ≠ Stat.RUN_OK)
    (hzero : ∀ s ∈ ctx, (h.getVarFun s name_id args vf.fn).1 = Value.invalid)
    (hne : ctx ≠ [] ∨ names = [])
    (hderef : h.dereference Value.invalid = Value.invalid) :
    execVarFun h (fuel + 2) vf ctx false = some (.ok Value.invalid) ∧
    ∀ (tpl : Template) (rest : List Element) (wr : Writer) (out : Bytes)
      (d : List Bytes) (err : Option Error), tpl.Strict = false →
      run h (fuel + 3) tpl (.VarFun vf :: rest) wr out d ctx err
        = run h (fuel + 2) tpl rest wr out d ctx none := by
  have h1 : execVarFun h (fuel + 2) vf ctx false = some (.ok Value.invalid) := by
    rw [execVarFun_eq h (fuel + 1) vf ctx false name_id names args hpath hargs, if_pos hkey]
    cases ctx with
    | nil =>
      rcases hne with hne | hne
      · exact (hne rfl).elim
      · subst hne
        simp [searchCtx, restPath]
    | cons c0 ctx =>
      rw [searchCtx_unresolved h name_id args vf.fn c0 ctx hfail,
        if_pos (hfail c0 (by simp)), hzero c0 (by simp)]
      simp
  refine ⟨h1, ?_⟩
  intro tpl rest wr out d err hs
  rw [run]
  simp only [hs, h1, hderef]

theorem execVarFun_nonstrict_unresolved_witness :
    execVarFun sampleHost 3 (var 3 "x") [scope [("y", .int 1)], .invalid, .int 5] false
      = some (.ok Value.invalid) ∧
    run sampleHost 4 (.mk [] false none) [.VarFun (var 3 "x"), txt "z"] bytesBuffer
        (ascii "a") [] [scope [("y", .int 1)], .invalid, .int 5] none
      = run sampleHost 3 (.mk [] false none) [txt "z"] bytesBuffer
        (ascii "a") [] [scope [("y", .int 1)], .invalid, .int 5] none :=
  have w := execVarFun_nonstrict_unresolved sampleHost 1 (var 3 "x")
    [scope [("y", .int 1)], .invalid, .int 5] (.str (ascii "x")) [] [] rfl rfl rfl
    (by decide) (by
      intro s hs
      simp only [List.mem_cons, List.mem_singleton, List.not_mem_nil, or_false] at hs
      rcases hs with hs | hs | hs <;> subst hs <;> rfl)
    (Or.inl (by simp)) rfl
  ⟨w.1, w.2 (.mk [] false none) [txt "z"] bytesBuffer (ascii "a") [] none rfl⟩

/-! ## Resolution of the later segments -/

/-- C7: when the probe of a second or later segment fails with status `stat`
(the segment's arguments being evaluated without error), `execVarFun` returns
the error `RunErr` with that segment's line and `stat` if the resolution is
strict or `stat` is neither `RUN_NOT_FOUND` nor `RUN_NIL_CTX`; otherwise it
stops there, whatever segments remain, and returns no error.  The loop over
the later segments is entered with the value of the first segment and moves
on to the next segment after each successful probe, so this holds at every
later segment. -/
theorem restPath_probe_fails (h : Host) (fuel : Nat) (vf vf1 : VarFunElem)
    (ctx : List Value) (val name_id : Value) (names args : List Value)
    (hnext : vf.next = some vf1)
    (hargs : execArgs h fuel vf1.args ctx vf1.ln = some (.ok args)) :
    (∀ strict : Bool,
      (h.getVarFun val name_id args vf1.fn).2 ≠ Stat.RUN_OK →
      (strict = true ∨
        ((h.getVarFun val name_id args vf1.fn).2 ≠ Stat.RUN_NOT_FOUND ∧
          (h.getVarFun val name_id args vf1.fn).2 ≠ Stat.RUN_NIL_CTX)) →
      restPath h (fuel + 1) val (name_id :: names) vf ctx strict
        = some (.error (Error.RunErr vf1.ln (h.getVarFun val name_id args vf1.fn).2))) ∧
    ((h.getVarFun val name_id args vf1.fn).2 = Stat.RUN_NOT_FOUND ∨
        (h.getVarFun val name_id args vf1.fn).2 = Stat.RUN_NIL_CTX →
      restPath h (fuel + 1) val (name_id :: names) vf ctx false
        = some (.ok (h.getVarFun val name_id args vf1.fn).1)) ∧
    (∀ strict : Bool, (h.getVarFun val name_id args vf1.fn).2 = Stat.RUN_OK →
      restPath h (fuel + 1) val (name_id :: names) vf ctx strict
        = restPath h fuel (h.getVarFun val name_id args vf1.fn).1 names vf1 ctx strict) ∧
    (∀ (strict : Bool) (vf0 : VarFunElem) (key : Value) (args0 : List Value),
      pathNames h (fuel + 1) (some vf0) ctx = some (.ok (key :: name_id :: names)) →
      execArgs h (fuel + 1) vf0.args ctx vf0.ln = some (.ok args0) →
      (((key.IsValid || vf0.fn) = true ∧
          searchCtx h key args0 vf0.fn ctx.reverse (Value.invalid, Stat.RUN_OK)
            = (val, Stat.RUN_OK)) ∨
        ((key.IsValid || vf0.fn) = false ∧ val = Value.ctxItself ctx)) →
      execVarFun h (fuel + 2) vf0 ctx strict
        = restPath h (fuel + 1) val (name_id :: names) vf0 ctx strict) := by
  refine ⟨?_, ?_, ?_, ?_⟩
  · intro strict hstat hkind
    rw [restPath, hnext]
    simp only [hargs]
    rw [if_pos hstat]
    rcases hkind with hs | ⟨h1, h2⟩
    · simp [hs]
    · simp [h1, h2]
  · intro hkind
    have hstat : (h.getVarFun val name_id args vf1.fn).2 ≠ Stat.RUN_OK := by
      rcases hkind with hk | hk <;> rw [hk] <;> decide
    rw [restPath, hnext]
    simp only [hargs]
    rw [if_pos hstat]
    rcases hkind with hk | hk <;> simp [hk]
  · intro strict hok
    rw [restPath, hnext]
    simp only [hargs]
    rw [if_neg (by simp [hok])]
  · intro strict vf0 key args0 hpath hargs0 hfirst
    rw [execVarFun_eq h (fuel + 1) vf0 ctx strict key (name_id :: names) args0 hpath hargs0]
    rcases hfirst with ⟨hk, hs⟩ | ⟨hk, hv⟩
    · rw [if_pos hk, hs]
      simp
    · rw [hk, hv]
      simp

theorem restPath_probe_fails_witness :
    execVarFun sampleHost 4 (pathAB false) ctxA true
      = some (.error (Error.RunErr 5 Stat.RUN_NOT_FOUND)) ∧
    execVarFun sampleHost 4 (pathAB false) ctxA false = some (.ok Value.invalid) ∧
    execVarFun sampleHost 4 (pathAB true) ctxA false
      = some (.error (Error.RunErr 5 (Stat.other 1))) :=
  have w := fun call => restPath_probe_fails sampleHost 2 (pathAB call)
    (.mk 5 true call (.value (.str (ascii "b"))) [] none) ctxA
    (scope [("c", .int 1)]) (.str (ascii "b")) [] [] rfl rfl
  ⟨((w false).2.2.2 true (pathAB false) (.str (ascii "a")) [] rfl rfl
      (Or.inl ⟨rfl, rfl⟩)).trans
      ((w false).1 true (by decide) (Or.inl rfl)),
   ((w false).2.2.2 false (pathAB false) (.str (ascii "a")) [] rfl rfl
      (Or.inl ⟨rfl, rfl⟩)).trans
      ((w false).2.1 (Or.inl rfl)),
   ((w true).2.2.2 false (pathAB true) (.str (ascii "a")) [] rfl rfl
      (Or.inl ⟨rfl, rfl⟩)).trans
      ((w true).1 false (by decide) (Or.inr ⟨by decide, by decide⟩))⟩

/-- C8: for a path whose first segment has a key or is a call, the value of
the first segment is the one returned by the probe of the innermost scope of
the context stack whose probe succeeds: when the scopes pushed after `s` all
fail and `s` succeeds with `v`, the search yields `v` whatever scopes lie
outside `s` (none of them is probed), the later segments are followed from
`v`, and a one-segment path resolves to `v`. -/
theorem first_segment_innermost (h : Host) (fuel : Nat) (vf : VarFunElem)
    (outer inner : List Value) (s v name_id : Value) (names args : List Value)
    (strict : Bool)
    (hpath : pathNames h fuel (some vf) (outer ++ s :: inner)
      = some (.ok (name_id :: names)))
    (hargs : execArgs h fuel vf.args (outer ++ s :: inner) vf.ln = some (.ok args))
    (hkey : (name_id.IsValid || vf.fn) = true)
    (hs : h.getVarFun s name_id args vf.fn = (v, Stat.RUN_OK))
    (hinner : ∀ t ∈ inner, (h.getVarFun t name_id args vf.fn).2 ≠ Stat.RUN_OK) :
    (∀ outer1 : List Value,
      searchCtx h name_id args vf.fn (outer1 ++ s :: inner).reverse
        (Value.invalid, Stat.RUN_OK) = (v, Stat.RUN_OK)) ∧
    execVarFun h (fuel + 1) vf (outer ++ s :: inner) strict
      = restPath h fuel v names vf (outer ++ s :: inner) strict ∧
    (names = [] →
      execVarFun h (fuel + 1) vf (outer ++ s :: inner) strict = some (.ok v)) := by
  have hsearch : ∀ outer1 : List Value,
      searchCtx h name_id args vf.fn (outer1 ++ s :: inner).reverse
        (Value.invalid, Stat.RUN_OK) = (v, Stat.RUN_OK) := by
    intro outer1
    rw [List.reverse_append, List.reverse_cons, List.append_assoc, List.singleton_append]
    exact searchCtx_found h name_id args vf.fn s v hs inner.reverse outer1.reverse _
      (fun t ht => hinner t (List.mem_reverse.mp ht))
  have hexec : execVarFun h (fuel + 1) vf (outer ++ s :: inner) strict
      = restPath h fuel v names vf (outer ++ s :: inner) strict := by
    rw [execVarFun_eq h fuel vf _ strict name_id names args hpath hargs, if_pos hkey,
      hsearch outer]
    simp
  refine ⟨hsearch, hexec, ?_⟩
  intro hn
  rw [hexec, hn]
  cases fuel with
  | zero => simp [pathNames] at hpath
  | succ n => simp [restPath]

theorem first_segment_innermost_witness :
    execVarFun sampleHost 3 (var 1 "x")
        [scope [("x", .int 1)], scope [("x", .int 2)], scope [("y", .int 3)]] false
      = some (.ok (Value.int 2)) :=
  (first_segment_innermost sampleHost 2 (var 1 "x") [scope [("x", .int 1)]]
    [scope [("y", .int 3)]] (scope [("x", .int 2)]) (.int 2) (.str (ascii "x")) [] []
    false rfl rfl rfl rfl (by decide)).2.2 rfl

/-! ## Loops over a sequence -/

theorem forSlice_eq_bodyRuns (h : Host) (tpl : Template) (ib : List Element)
    (val iter : Bytes) (inc : Int) (wr : Writer) (ctx : List Value) :
    ∀ (fuel : Nat) (evs : List Value) (ii : Nat) (out : Bytes) (d : List Bytes),
      forSlice h fuel tpl ib val iter inc wr ctx evs ii out d
        = bodyRuns h fuel tpl ib wr (loopStacks ctx val iter inc ii evs) out d := by
  intro fuel
  induction fuel with
  | zero => intros; simp [forSlice, bodyRuns]
  | succ n ih =>
    intro evs ii out d
    cases evs with
    | nil => simp [forSlice, bodyRuns, loopStacks]
    | cons ev evs =>
      rw [forSlice, loopStacks, bodyRuns]
      cases hrun : run h n tpl ib wr out d
          (ctx ++ [localCtx val iter (ifaceOf ev) (Value.int (wrapInt (ii + inc)))]) none with
      | none => rfl
      | some r =>
        simp only []
        rw [ih evs (ii + 1) r.out r.defer_out]

theorem loopStacks_length (ctx : List Value) (val iter : Bytes) (inc : Int) :
    ∀ (evs : List Value) (i : Nat), (loopStacks ctx val iter inc i evs).length = evs.length := by
  intro evs
  induction evs with
  | nil => intro i; rfl
  | cons ev evs ih => intro i; simp [loopStacks, ih]

theorem localCtx_of_ne (val iter : Bytes) (ev idx : Value) (hne : val ≠ iter) :
    localCtx val iter ev idx = iterScopeSpec val iter ev idx := by
  simp [localCtx, mapSet, iterScopeSpec, hne]

theorem localCtx_same (name : Bytes) (ev idx : Value) :
    localCtx name name ev idx = Value.map [(Value.str name, idx)] := by
  simp [localCtx, mapSet]

/-- C9, counterexample: with the element name and the index name both `x`, the
scope of an iteration binds `x` to the index value only, so a body printing
`$x` over `"a"`, `"b"` writes `01` (with distinct names it writes `ab`); a
body that returns is executed once for a sequence of three elements, not three
times; and with the largest `int` as offset the second index value is the
smallest `int`, not the offset plus one. -/
theorem loop_binding_counterexample :
    localCtx (ascii "x") (ascii "x") (.str (ascii "a")) (.int 0)
      = Value.map [(Value.str (ascii "x"), Value.int 0)] ∧
    Run sampleHost 9 sameNameLoop bytesBuffer [] ctxAB = some (ascii "01", none) ∧
    Run sampleHost 9 twoNameLoop bytesBuffer [] ctxAB = some (ascii "ab", none) ∧
    Run sampleHost 8 returnDoc bytesBuffer [] returnCtx = some (ascii "aD", none) ∧
    Run sampleHost 9 overflowLoop bytesBuffer [] ctxAB
      = some (ascii "9223372036854775807-9223372036854775808", none) :=
  ⟨rfl, rfl, rfl, rfl, by decide⟩

theorem ifaceOf_eq (ev : Value) : ifaceOf ev = ev := by
  cases ev <;> rfl

/-- A Go `int` sum that does not overflow is the mathematical sum. -/
theorem wrapInt_of_range (x : Int) (hlo : -9223372036854775808 ≤ x)
    (hhi : x < 9223372036854775808) : wrapInt x = x := by
  unfold wrapInt
  omega

theorem loopStacks_getElem (ctx : List Value) (val iter : Bytes) (inc : Int) :
    ∀ (evs : List Value) (start i : Nat) (ev : Value), evs[i]? = some ev →
      (loopStacks ctx val iter inc start evs)[i]?
        = some (ctx ++ [localCtx val iter ev
            (Value.int (wrapInt (((start + i : Nat) : Int) + inc)))]) := by
  intro evs
  induction evs with
  | nil => intro start i ev hi; simp at hi
  | cons e evs ih =>
    intro start i ev hi
    cases i with
    | zero =>
      simp at hi
      subst hi
      simp [loopStacks, ifaceOf_eq]
    | succ j =>
      simp at hi
      have := ih (start + 1) j ev hi
      simp only [loopStacks, List.getElem?_cons_succ]
      rw [this, Nat.add_right_comm start 1 j, Nat.add_assoc start j 1]

/-- C9, amended: for a loop whose source resolves to an array or slice, an
empty sequence runs the empty-branch once against the unmodified context stack
(the body plays no part), and a sequence of `n > 0` elements runs the body
once per element in index order, each execution starting where the one before
ended and the executions ending early only when one returns or fails (the
empty-branch plays no part).  There are `n` context stacks; the `i`-th is the
stack extended by one scope in which the index name is bound to the Go `int`
sum of `i` and the offset, which is `i` plus the offset unless that overflows,
and, the two names being different, the element name to element `i`; when the
two names are equal the scope binds that name to the index value.  With offset
1 a sequence of three elements gets the index values 1, 2, 3 in that order. -/
theorem loop_over_sequence (h : Host) (fuel : Nat) (tpl : Template) (wr : Writer)
    (ctx : List Value) (ln : Nat) (arg : VarFunElem) (val iter : Bytes) (inc : Int)
    (ib eb rest : List Element) (out : Bytes) (d : List Bytes) (err : Option Error)
    (val0 : Value)
    (hsrc : execVarFun h (fuel + 1) arg ctx false = some (.ok val0))
    (hkind : (h.dereference val0).Kind = Kind.Slice) :
    ((h.dereference val0).items = [] →
      run h (fuel + 2) tpl (Element.ForElem ln arg val iter inc ib eb :: rest) wr out d ctx err
        = match run h (fuel + 1) tpl eb wr out d ctx none with
          | none => none
          | some r =>
            if r.stop then some r
            else run h (fuel + 1) tpl rest wr r.out r.defer_out ctx none) ∧
    ((h.dereference val0).items ≠ [] →
      run h (fuel + 2) tpl (Element.ForElem ln arg val iter inc ib eb :: rest) wr out d ctx err
        = match bodyRuns h (fuel + 1) tpl ib wr
              (loopStacks ctx val iter inc 0 (h.dereference val0).items) out d with
          | none => none
          | some r =>
            if r.stop then some r
            else run h (fuel + 1) tpl rest wr r.out r.defer_out ctx none) ∧
    (loopStacks ctx val iter inc 0 (h.dereference val0).items).length
      = (h.dereference val0).items.length ∧
    (∀ (i : Nat) (ev : Value), (h.dereference val0).items[i]? = some ev →
      (loopStacks ctx val iter inc 0 (h.dereference val0).items)[i]?
        = some (ctx ++ [localCtx val iter ev (Value.int (wrapInt ((i : Int) + inc)))])) ∧
    (∀ i : Nat, -9223372036854775808 ≤ (i : Int) + inc →
      (i : Int) + inc < 9223372036854775808 → wrapInt ((i : Int) + inc) = (i : Int) + inc) ∧
    (∀ ev idx : Value,
      (val ≠ iter → localCtx val iter ev idx = iterScopeSpec val iter ev idx) ∧
      (val = iter → localCtx val iter ev idx = Value.map [(Value.str iter, idx)])) ∧
    (∀ a b c : Value,
      loopStacks ctx val iter 1 0 [a, b, c]
        = [ctx ++ [localCtx val iter a (Value.int 1)],
           ctx ++ [localCtx val iter b (Value.int 2)],
           ctx ++ [localCtx val iter c (Value.int 3)]]) := by
  refine ⟨?_, ?_, loopStacks_length ctx val iter inc _ 0, ?_,
    fun i hlo hhi => wrapInt_of_range _ hlo hhi, ?_, ?_⟩
  · intro hnil
    exact run_ForElem_empty h fuel tpl wr ctx ib eb rest val iter inc ln arg out d err val0
      hsrc (Or.inl ⟨hkind, hnil⟩)
  · intro hne
    rw [run_ForElem_slice h fuel tpl wr ctx ib eb rest val iter inc ln arg out d err val0
      hsrc hkind hne, forSlice_eq_bodyRuns]
  · intro i ev hi
    have := loopStacks_getElem ctx val iter inc _ 0 i ev hi
    simpa using this
  · intro ev idx
    refine ⟨localCtx_of_ne val iter ev idx, ?_⟩
    intro he
    subst he
    exact localCtx_same val ev idx
  · intro a b c
    have h1 : wrapInt ((0 : Nat) + 1) = 1 := by decide
    have h2 : wrapInt (((0 + 1 : Nat) : Int) + 1) = 2 := by decide
    have h3 : wrapInt (((0 + 1 + 1 : Nat) : Int) + 1) = 3 := by decide
    simp only [loopStacks, ifaceOf_eq, h1, h2, h3]

theorem loop_over_sequence_witness :
    run sampleHost 8 (.mk [] true none) [indexLoop] bytesBuffer [] [] returnCtx none
      = some ⟨false, none, ascii "123", []⟩ ∧
    run sampleHost 8 (.mk [] true none) [indexLoop] bytesBuffer [] []
        [scope [("xs", .slice [])]] none
      = some ⟨false, none, ascii "e", []⟩ :=
  ⟨((loop_over_sequence sampleHost 6 (.mk [] true none) bytesBuffer returnCtx 1
      (var 1 "xs") (ascii "x") (ascii "i") 1 [.VarFun (var 1 "i")] [txt "e"] [] [] []
      none (.slice [.int 1, .int 2, .int 3]) rfl rfl).2.1 (by simp [Value.items, sampleHost])).trans rfl,
   ((loop_over_sequence sampleHost 6 (.mk [] true none) bytesBuffer
      [scope [("xs", .slice [])]] 1
      (var 1 "xs") (ascii "x") (ascii "i") 1 [.VarFun (var 1 "i")] [txt "e"] [] [] []
      none (.slice []) rfl rfl).1 rfl).trans rfl⟩

/-! ## Loops over a map -/

/-- C10, counterexample: over an empty map a loop with the non-zero index
offset 1 raises no error; it executes the empty-branch. -/
theorem empty_map_offset_no_error :
    Run sampleHost 7 (.mk [mapLoop] true none) bytesBuffer []
        [scope [("m", .map [])]]
      = some (ascii "e", none) :=
  rfl

/-- C10, amended: for a loop whose source resolves to a map and whose index
offset is not zero, a non-empty map makes the walk end with the error
`RunErr{ln, RUN_INC_MAP_KEY}` of the loop's line, sink and registry being left
as they were (neither the body nor the empty-branch is executed), and `Run`
returns that error; an empty map raises no such error: the empty-branch is
executed once against the unmodified context stack. -/
theorem map_loop_offset (h : Host) (fuel : Nat) (tpl : Template) (wr : Writer)
    (ctx : List Value) (ln : Nat) (arg : VarFunElem) (val iter : Bytes) (inc : Int)
    (ib eb rest : List Element) (out : Bytes) (d : List Bytes) (err : Option Error)
    (val0 : Value) (kvs : List (Value × Value))
    (hsrc : execVarFun h (fuel + 1) arg ctx false = some (.ok val0))
    (hmap : h.dereference val0 = Value.map kvs)
    (hinc : inc ≠ 0) :
    (kvs ≠ [] →
      run h (fuel + 2) tpl (Element.ForElem ln arg val iter inc ib eb :: rest) wr out d ctx err
          = some ⟨false, some (Error.RunErr ln Stat.RUN_INC_MAP_KEY), out, d⟩ ∧
        (tpl.elems = Element.ForElem ln arg val iter inc ib eb :: rest →
          Run h (fuel + 3) tpl wr out ctx
            = some (out, some (Error.RunErr ln Stat.RUN_INC_MAP_KEY)))) ∧
    (kvs = [] →
      run h (fuel + 2) tpl (Element.ForElem ln arg val iter inc ib eb :: rest) wr out d ctx err
        = match run h (fuel + 1) tpl eb wr out d ctx none with
          | none => none
          | some r =>
            if r.stop then some r
            else run h (fuel + 1) tpl rest wr r.out r.defer_out ctx none) := by
  refine ⟨?_, ?_⟩
  · intro hne
    have hrun : ∀ (out : Bytes) (d : List Bytes) (err : Option Error),
        run h (fuel + 2) tpl (Element.ForElem ln arg val iter inc ib eb :: rest)
            wr out d ctx err
          = some ⟨false, some (Error.RunErr ln Stat.RUN_INC_MAP_KEY), out, d⟩ := by
      intro out d err
      rw [run_ForElem_map h fuel tpl wr ctx ib eb rest val iter inc ln arg out d err
        val0 kvs hsrc hmap hne, if_pos hinc]
    refine ⟨hrun out d err, ?_⟩
    intro helems
    rw [Run, helems, hrun out [] none]
  · intro hnil
    subst hnil
    exact run_ForElem_empty h fuel tpl wr ctx ib eb rest val iter inc ln arg out d err
      val0 hsrc (Or.inr (Or.inl hmap))

theorem map_loop_offset_witness :
    Run sampleHost 7 (.mk [mapLoop] true none) bytesBuffer (ascii "p")
        [scope [("m", scope [("a", .int 1)])]]
      = some (ascii "p", some (Error.RunErr 7 Stat.RUN_INC_MAP_KEY)) :=
  ((map_loop_offset sampleHost 4 (.mk [mapLoop] true none) bytesBuffer
      [scope [("m", scope [("a", .int 1)])]] 7 (var 7 "m") (ascii "v") (ascii "k") 1
      [txt "b"] [txt "e"] [] (ascii "p") [] none (scope [("a", .int 1)])
      [(Value.str (ascii "a"), .int 1)] rfl rfl (by decide)).1 (by simp)).2 rfl

/-! ## Errors and the sink -/

/-- C11: if the node walk of a `Run` ends with an error, `Run` returns that
same error and writes no deferred buffer: the sink holds what the walk left in
it. -/
theorem Run_walk_error (h : Host) (fuel : Nat) (tpl : Template) (wr : Writer)
    (out : Bytes) (ctx : List Value) (r : RunRes) (e : Error)
    (hrun : run h fuel tpl tpl.elems wr out [] ctx none = some r)
    (herr : r.err = some e) :
    Run h (fuel + 1) tpl wr out ctx = some (r.out, some e) := by
  rw [Run_of_run h fuel tpl wr out ctx r hrun, herr]

theorem Run_walk_error_witness :
    Run sampleHost 7 failDoc bytesBuffer [] [scope []]
      = some (ascii "x", some (Error.RunErr 3 Stat.RUN_NOT_FOUND)) :=
  Run_walk_error sampleHost 6 failDoc bytesBuffer [] [scope []]
    ⟨false, some (Error.RunErr 3 Stat.RUN_NOT_FOUND), ascii "x", [ascii "D"]⟩
    (Error.RunErr 3 Stat.RUN_NOT_FOUND) rfl rfl

theorem Writer.Write_grows (wr : Writer) (out p : Bytes) :
    out <+: (wr.Write out p).1 := by
  unfold Writer.Write
  split
  · exact List.prefix_refl _
  · exact List.prefix_append _ _

theorem emit_grows (tpl : Template) (ht : AppendOnly tpl.EscapeFunc) (wr : Writer)
    (filt : Bool) (out txt : Bytes) : out <+: (emit tpl wr filt out txt).1 := by
  unfold emit
  split
  · split
    · rename_i f hf
      exact ht f hf wr out txt
    · exact Writer.Write_grows wr out txt
  · exact Writer.Write_grows wr out txt

theorem flushDeferred_grows (wr : Writer) :
    ∀ (bufs : List Bytes) (out : Bytes), out <+: (flushDeferred wr bufs out).1 := by
  intro bufs
  induction bufs with
  | nil => intro out; exact List.prefix_refl _
  | cons b bufs ih =>
    intro out
    rw [flushDeferred]
    split
    · rename_i out1 e heq
      have := Writer.Write_grows wr out b
      rw [heq] at this
      exact this
    · rename_i out1 heq
      have := Writer.Write_grows wr out b
      rw [heq] at this
      exact this.trans (ih out1)
theorem HooksAppend.items {v : Value} (hv : HooksAppend v) :
    ∀ x ∈ v.items, HooksAppend x := by
  cases hv with
  | bytes b =>
    intro x hx
    simp only [Value.items, List.mem_map] at hx
    obtain ⟨n, _, hn⟩ := hx
    rw [← hn]
    exact HooksAppend.int _
  | slice xs hxs => exact hxs
  | ctxItself ctx hctx => exact hctx
  | _ => intro x hx; simp [Value.items] at hx

theorem mapSet_hooksAppend (k : Bytes) (v : Value) (hv : HooksAppend v) :
    ∀ m : List (Value × Value), (∀ kv ∈ m, HooksAppend kv.1 ∧ HooksAppend kv.2) →
      ∀ kv ∈ mapSet m k v, HooksAppend kv.1 ∧ HooksAppend kv.2 := by
  intro m
  induction m with
  | nil =>
    intro _ kv hkv
    simp only [mapSet, List.mem_singleton] at hkv
    rw [hkv]
    exact ⟨HooksAppend.str k, hv⟩
  | cons e m ih =>
    intro hm kv hkv
    have he := hm e (by simp)
    have hrest : ∀ kv ∈ m, HooksAppend kv.1 ∧ HooksAppend kv.2 :=
      fun kv hkv => hm kv (by simp [hkv])
    obtain ⟨key, val⟩ := e
    cases key with
    | str k1 =>
      simp only [mapSet] at hkv
      split at hkv
      · rcases List.mem_cons.mp hkv with hk | hk
        · rw [hk]; exact ⟨HooksAppend.str k1, hv⟩
        · exact hrest kv hk
      · rcases List.mem_cons.mp hkv with hk | hk
        · rw [hk]; exact he
        · exact ih hrest kv hk
    | _ =>
      simp only [mapSet] at hkv
      rcases List.mem_cons.mp hkv with hk | hk
      · rw [hk]; exact he
      · exact ih hrest kv hk

theorem localCtx_hooksAppend (val iter : Bytes) (ev idx : Value)
    (hev : HooksAppend ev) (hidx : HooksAppend idx) :
    HooksAppend (localCtx val iter ev idx) := by
  unfold localCtx
  have hall := mapSet_hooksAppend iter idx hidx _
    (mapSet_hooksAppend val ev hev [] (fun kv hkv => by simp at hkv))
  exact HooksAppend.map _ (fun kv hkv => (hall kv hkv).1) (fun kv hkv => (hall kv hkv).2)

theorem stack_hooksAppend {ctx : List Value} (hctx : ∀ x ∈ ctx, HooksAppend x)
    {s : Value} (hs : HooksAppend s) : ∀ x ∈ ctx ++ [s], HooksAppend x := by
  intro x hx
  rcases List.mem_append.mp hx with hx | hx
  · exact hctx x hx
  · simp at hx; rw [hx]; exact hs

theorem searchCtx_hooksAppend (h : Host) (hk : h.KeepsHooks) (name_id : Value)
    (args : List Value) (fn : Bool) :
    ∀ (scopes : List Value) (acc : Value × Stat), (∀ s ∈ scopes, HooksAppend s) →
      HooksAppend acc.1 → HooksAppend (searchCtx h name_id args fn scopes acc).1 := by
  intro scopes
  induction scopes with
  | nil => intro acc _ hacc; exact hacc
  | cons s scopes ih =>
    intro acc hs _
    have hg := hk.1 s name_id args fn (hs s (by simp))
    rw [searchCtx]
    split
    · exact hg
    · exact ih _ (fun t ht => hs t (by simp [ht])) hg

theorem restPath_hooksAppend (h : Host) (hk : h.KeepsHooks) :
    ∀ (fuel : Nat) (val : Value) (names : List Value) (vf : VarFunElem)
      (ctx : List Value) (strict : Bool) (v : Value), HooksAppend val →
      restPath h fuel val names vf ctx strict = some (.ok v) → HooksAppend v := by
  intro fuel
  induction fuel with
  | zero => intro val names vf ctx strict v _ hr; simp [restPath] at hr
  | succ n ih =>
    intro val names vf ctx strict v hval hr
    cases names with
    | nil =>
      simp [restPath] at hr
      rw [← hr]; exact hval
    | cons name_id names =>
      rw [restPath] at hr
      split at hr
      · simp at hr
      · split at hr
        · simp at hr
        · simp at hr
        · have hg : ∀ (args : List Value) (fn : Bool),
              HooksAppend (h.getVarFun val name_id args fn).1 :=
            fun args fn => hk.1 val name_id args fn hval
          simp only [] at hr
          split at hr
          · split at hr
            · simp at hr
            · simp at hr
              rw [← hr]; exact hg _ _
          · exact ih _ _ _ _ _ _ (hg _ _) hr

theorem execVarFun_hooksAppend (h : Host) (hk : h.KeepsHooks) (fuel : Nat)
    (vf : VarFunElem) (ctx : List Value) (strict : Bool) (v : Value)
    (hctx : ∀ x ∈ ctx, HooksAppend x)
    (hr : execVarFun h fuel vf ctx strict = some (.ok v)) : HooksAppend v := by
  cases fuel with
  | zero => simp [execVarFun] at hr
  | succ n =>
    rw [execVarFun] at hr
    split at hr
    · simp at hr
    · simp at hr
    · split at hr
      · simp at hr
      · simp at hr
      · split at hr
        · simp at hr
        · have hs : ∀ (name_id : Value) (args : List Value),
              HooksAppend (searchCtx h name_id args vf.fn ctx.reverse
                (Value.invalid, Stat.RUN_OK)).1 :=
            fun name_id args => searchCtx_hooksAppend h hk name_id args vf.fn ctx.reverse
              (Value.invalid, Stat.RUN_OK) (fun s hs => hctx s (List.mem_reverse.mp hs))
              HooksAppend.invalid
          simp only [] at hr
          split at hr
          · split at hr
            · split at hr
              · simp at hr
              · simp at hr
                rw [← hr]; exact hs _ _
            · exact restPath_hooksAppend h hk _ _ _ _ _ _ _ (hs _ _) hr
          · exact restPath_hooksAppend h hk _ _ _ _ _ _ _
              (HooksAppend.ctxItself ctx hctx) hr

/-- Nothing is taken back from the sink: on a host that keeps hooks that only
append, with such a hook in the template and such values in the context stack,
what `run`, `Run` and the loops of the `ForElem` branch leave in the sink
extends what they found. -/
theorem sink_grows (h : Host) (hk : h.KeepsHooks) : ∀ fuel : Nat,
    (∀ tpl elems wr out d ctx err r, AppendOnly tpl.EscapeFunc →
      (∀ x ∈ ctx, HooksAppend x) →
      run h fuel tpl elems wr out d ctx err = some r → out <+: r.out) ∧
    (∀ tpl wr out ctx o, AppendOnly tpl.EscapeFunc → (∀ x ∈ ctx, HooksAppend x) →
      Run h fuel tpl wr out ctx = some o → out <+: o.1) ∧
    (∀ tpl blk val iter inc wr ctx evs ii out d r, AppendOnly tpl.EscapeFunc →
      (∀ x ∈ ctx, HooksAppend x) → (∀ x ∈ evs, HooksAppend x) →
      forSlice h fuel tpl blk val iter inc wr ctx evs ii out d = some r →
        out <+: r.out) ∧
    (∀ tpl blk val iter wr ctx kvs out d r, AppendOnly tpl.EscapeFunc →
      (∀ x ∈ ctx, HooksAppend x) →
      (∀ kv ∈ kvs, HooksAppend kv.1 ∧ HooksAppend kv.2) →
      forMap h fuel tpl blk val iter wr ctx kvs out d = some r →
        out <+: r.out) ∧
    (∀ tpl blk val iter wr ctx items ii out d r, AppendOnly tpl.EscapeFunc →
      (∀ x ∈ ctx, HooksAppend x) → (∀ x ∈ items, HooksAppend x) →
      forChan h fuel tpl blk val iter wr ctx items ii out d = some r →
        out <+: r.1.out) := by
  intro fuel
  induction fuel with
  | zero =>
    refine ⟨?_, ?_, ?_, ?_, ?_⟩ <;> intros <;>
      simp_all [run, Run, forSlice, forMap, forChan]
  | succ fuel ih =>
    obtain ⟨ihRun, ihTop, ihSlice, ihMap, ihChan⟩ := ih
    refine ⟨?_, ?_, ?_, ?_, ?_⟩
    · intro tpl elems wr out d ctx err r ht hc hr
      cases elems with
      | nil => simp [run] at hr; subst hr; exact List.prefix_refl _
      | cons va rest =>
        cases va with
        | TxtElem t =>
          rw [run] at hr
          have hw := Writer.Write_grows wr out t
          split at hr
          · rename_i out1 e heq
            rw [heq] at hw
            simp at hr; subst hr; exact hw
          · rename_i out1 heq
            rw [heq] at hw
            exact hw.trans (ihRun _ _ _ _ _ _ _ _ ht hc hr)
        | ReturnElem => simp [run] at hr; subst hr; exact List.prefix_refl _
        | DeferElem blk =>
          rw [run] at hr
          split at hr
          · simp at hr
          · split at hr
            · simp at hr; subst hr; exact List.prefix_refl _
            · exact ihRun _ _ _ _ _ _ _ _ ht hc hr
        | VarFun el =>
          rw [run] at hr
          split at hr
          · simp at hr
          · simp at hr; subst hr; exact List.prefix_refl _
          · rename_i val0 hval
            have hgood := hk.2 val0
              (execVarFun_hooksAppend h hk fuel el ctx tpl.Strict val0 hc hval)
            split at hr
            · exact ihRun _ _ _ _ _ _ _ _ ht hc hr
            · rename_i vtn hd
              rw [hd] at hgood
              have hv : AppendOnly vtn.EscapeFunc := by
                cases hgood with
                | tpl _ ha => exact ha
              split at hr
              · simp at hr
              · rename_i out1 e h1
                have p1 := ihTop _ _ _ _ _ hv hc h1
                simp at hr; subst hr; exact p1
              · rename_i out1 h1
                have p1 := ihTop _ _ _ _ _ hv hc h1
                exact p1.trans (ihRun _ _ _ _ _ _ _ _ ht hc hr)
            · rename_i vt vc hd
              rw [hd] at hgood
              have hv : AppendOnly vt.EscapeFunc ∧ ∀ x ∈ vc, HooksAppend x := by
                cases hgood with
                | nested _ _ ha hb => exact ⟨ha, hb⟩
              split at hr
              · simp at hr
              · rename_i out1 e h1
                have p1 := ihTop _ _ _ _ _ hv.1 hv.2 h1
                simp at hr; subst hr; exact p1
              · rename_i out1 h1
                have p1 := ihTop _ _ _ _ _ hv.1 hv.2 h1
                exact p1.trans (ihRun _ _ _ _ _ _ _ _ ht hc hr)
            · exact (emit_grows tpl ht wr _ out _).trans (ihRun _ _ _ _ _ _ _ _ ht hc hr)
            · exact (emit_grows tpl ht wr _ out _).trans (ihRun _ _ _ _ _ _ _ _ ht hc hr)
        | IfElem ln cmp a1 a2 tb fb =>
          rw [run] at hr
          split at hr
          · simp at hr
          · simp at hr; subst hr; exact List.prefix_refl _
          · simp only [] at hr
            split at hr
            · simp at hr
            · simp at hr; subst hr; exact List.prefix_refl _
            · split at hr
              · simp at hr
              · rename_i r1 h1
                have p1 := ihRun _ _ _ _ _ _ _ _ ht hc h1
                split at hr
                · simp at hr; subst hr; exact p1
                · exact p1.trans (ihRun _ _ _ _ _ _ _ _ ht hc hr)
        | ForElem ln arg val iter inc ib eb =>
          rw [run] at hr
          split at hr
          · simp at hr
          · simp at hr; subst hr; exact List.prefix_refl _
          · rename_i val0 hval
            have hgood := hk.2 val0
              (execVarFun_hooksAppend h hk fuel arg ctx false val0 hc hval)
            simp only [] at hr
            split at hr
            · simp at hr
            · rename_i r1 h1
              have p1 : out <+: r1.out := by
                split at h1
                · split at h1
                  · exact ihSlice _ _ _ _ _ _ _ _ _ _ _ _ ht hc hgood.items h1
                  · exact ihRun _ _ _ _ _ _ _ _ ht hc h1
                · split at h1
                  · rename_i kvs hd
                    rw [hd] at hgood
                    have hkv : ∀ kv ∈ kvs, HooksAppend kv.1 ∧ HooksAppend kv.2 := by
                      cases hgood with
                      | map _ ha hb => exact fun kv hkv => ⟨ha kv hkv, hb kv hkv⟩
                    split at h1
                    · split at h1
                      · simp at h1; subst h1; exact List.prefix_refl _
                      · exact ihMap _ _ _ _ _ _ _ _ _ _ ht hc hkv h1
                    · exact ihRun _ _ _ _ _ _ _ _ ht hc h1
                  · simp at h1
                · split at h1
                  · rename_i items hd
                    rw [hd] at hgood
                    have hit : ∀ x ∈ items, HooksAppend x := by
                      cases hgood with
                      | chan _ ha => exact ha
                    split at h1
                    · simp at h1
                    · rename_i r2 ii2 h2
                      have p2 := ihChan _ _ _ _ _ _ _ _ _ _ _ ht hc hit h2
                      split at h1
                      · simp at h1; subst h1; exact p2
                      · split at h1
                        · exact p2.trans (ihRun _ _ _ _ _ _ _ _ ht hc h1)
                        · simp at h1; subst h1; exact p2
                  · simp at h1
                · exact ihRun _ _ _ _ _ _ _ _ ht hc h1
                · exact ihRun _ _ _ _ _ _ _ _ ht
                    (stack_hooksAppend hc
                      (localCtx_hooksAppend val iter _ _ hgood HooksAppend.invalid)) h1
              split at hr
              · simp at hr; subst hr; exact p1
              · exact p1.trans (ihRun _ _ _ _ _ _ _ _ ht hc hr)
    · intro tpl wr out ctx o ht hc hr
      rw [Run] at hr
      split at hr
      · simp at hr
      · rename_i r1 h1
        have p1 := ihRun _ _ _ _ _ _ _ _ ht hc h1
        split at hr
        · simp at hr; subst hr; exact p1
        · simp at hr; subst hr
          exact p1.trans (flushDeferred_grows wr _ _)
    · intro tpl blk val iter inc wr ctx evs ii out d r ht hc he hr
      cases evs with
      | nil => simp [forSlice] at hr; subst hr; exact List.prefix_refl _
      | cons ev evs =>
        rw [forSlice] at hr
        have hstack := stack_hooksAppend hc
          (localCtx_hooksAppend val iter (ifaceOf ev) (Value.int (wrapInt (ii + inc)))
            (by rw [ifaceOf_eq]; exact he ev (by simp)) (HooksAppend.int _))
        split at hr
        · simp at hr
        · rename_i r1 h1
          have p1 := ihRun _ _ _ _ _ _ _ _ ht hstack h1
          split at hr
          · simp at hr; subst hr; exact p1
          · exact p1.trans (ihSlice _ _ _ _ _ _ _ _ _ _ _ _ ht hc
              (fun x hx => he x (by simp [hx])) hr)
    · intro tpl blk val iter wr ctx kvs out d r ht hc he hr
      cases kvs with
      | nil => simp [forMap] at hr; subst hr; exact List.prefix_refl _
      | cons kv kvs =>
        rw [forMap] at hr
        have hstack := stack_hooksAppend hc
          (localCtx_hooksAppend val iter (ifaceOf kv.2) kv.1
            (by rw [ifaceOf_eq]; exact (he kv (by simp)).2) (he kv (by simp)).1)
        split at hr
        · simp at hr
        · rename_i r1 h1
          have p1 := ihRun _ _ _ _ _ _ _ _ ht hstack h1
          split at hr
          · simp at hr; subst hr; exact p1
          · exact p1.trans (ihMap _ _ _ _ _ _ _ _ _ _ ht hc
              (fun x hx => he x (by simp [hx])) hr)
    · intro tpl blk val iter wr ctx items ii out d r ht hc he hr
      cases items with
      | nil => simp [forChan] at hr; subst hr; exact List.prefix_refl _
      | cons ev items =>
        rw [forChan] at hr
        have hstack := stack_hooksAppend hc
          (localCtx_hooksAppend val iter (ifaceOf ev) (Value.int ii)
            (by rw [ifaceOf_eq]; exact he ev (by simp)) (HooksAppend.int _))
        split at hr
        · simp at hr
        · rename_i r1 h1
          have p1 := ihRun _ _ _ _ _ _ _ _ ht hstack h1
          split at hr
          · simp at hr; subst hr; exact p1
          · exact p1.trans (ihChan _ _ _ _ _ _ _ _ _ _ _ ht hc
              (fun x hx => he x (by simp [hx])) hr)

theorem mapGet_hooksAppend (k : Bytes) (v : Value) :
    ∀ kvs : List (Value × Value), (∀ kv ∈ kvs, HooksAppend kv.2) →
      mapGet kvs k = some v → HooksAppend v := by
  intro kvs
  induction kvs with
  | nil => intro _ hg; simp [mapGet] at hg
  | cons e kvs ih =>
    intro hall hg
    have he := hall e (by simp)
    have hrest : ∀ kv ∈ kvs, HooksAppend kv.2 := fun kv hkv => hall kv (by simp [hkv])
    obtain ⟨key, val⟩ := e
    cases key with
    | str k1 =>
      simp only [mapGet] at hg
      split at hg
      · simp at hg
        rw [← hg]; exact he
      · exact ih hrest hg
    | _ =>
      simp only [mapGet] at hg
      exact ih hrest hg

/-- The sample host keeps hooks that only append: its probe returns nil or an
entry of the scope, and its `dereference` returns the value itself. -/
theorem sampleHost_keepsHooks : sampleHost.KeepsHooks := by
  refine ⟨?_, fun v hv => hv⟩
  intro s name_id args fn hs
  show HooksAppend (sampleGetVarFun s name_id args fn).1
  unfold sampleGetVarFun
  cases hs with
  | map kvs h1 h2 =>
    simp only []
    split
    · exact HooksAppend.invalid
    · split
      · split
        · rename_i hget
          exact mapGet_hooksAppend _ _ kvs h2 hget
        · exact HooksAppend.invalid
      · exact HooksAppend.invalid
  | invalid => exact HooksAppend.invalid
  | _ => simp only []; split <;> exact HooksAppend.invalid

/-- C12, counterexample: `Run` returns an error and the sink holds partial
output all the same.  The bytes `x` written before the resolution failure of
`failDoc` stay in the sink; and when the sink accepts one byte only, the flush
of the deferred buffers `A`, `B` writes `B` and fails on `A`. -/
theorem failed_run_partial_output :
    Run sampleHost 7 failDoc bytesBuffer [] [scope []]
      = some (ascii "x", some (Error.RunErr 3 Stat.RUN_NOT_FOUND)) ∧
    Run sampleHost 6 (.mk [.DeferElem [txt "A"], .DeferElem [txt "B"]] true none)
        (limitedWriter 1) [] []
      = some (ascii "B", some (Error.io 1)) :=
  ⟨rfl, rfl⟩

/-- C12, amended: when the node walk ends with an error, `Run` returns that
error and flushes no deferred buffer, but nothing is taken back from the sink:
the sink after a `Run`, failed or not, extends the sink before it, the bytes of
a text node that was written stay in the sink whatever the rest of the walk
does, and a deferred buffer flushed before a failing write of the flush stays
in the sink too.  (The escape hooks of the template and of the template values
in the context stack are taken to append only, as a hook that writes to an
`io.Writer` does.) -/
theorem failed_run_keeps_output (h : Host) (hk : h.KeepsHooks) (fuel : Nat)
    (tpl : Template) (ht : AppendOnly tpl.EscapeFunc) (wr : Writer) (out : Bytes)
    (ctx : List Value) (hc : ∀ x ∈ ctx, HooksAppend x) :
    (∀ (r : RunRes) (e : Error),
      run h fuel tpl tpl.elems wr out [] ctx none = some r → r.err = some e →
      Run h (fuel + 1) tpl wr out ctx = some (r.out, some e) ∧ out <+: r.out) ∧
    (∀ (t : Bytes) (rest : List Element) (d : List Bytes) (err : Option Error)
      (r : RunRes),
      wr.refuse out t = none →
      run h (fuel + 1) tpl (Element.TxtElem t :: rest) wr out d ctx err = some r →
      out ++ t <+: r.out) ∧
    (∀ o : Bytes × Option Error,
      Run h fuel tpl wr out ctx = some o → out <+: o.1) ∧
    (∀ (b : Bytes) (bufs : List Bytes),
      wr.refuse out b = none →
      out ++ b <+: (flushDeferred wr (b :: bufs) out).1) := by
  refine ⟨?_, ?_, ?_, ?_⟩
  · intro r e hrun herr
    refine ⟨?_, (sink_grows h hk fuel).1 _ _ _ _ _ _ _ _ ht hc hrun⟩
    rw [Run_of_run h fuel tpl wr out ctx r hrun, herr]
  · intro t rest d err r hw hrun
    rw [run] at hrun
    simp only [Writer.Write, hw] at hrun
    exact (sink_grows h hk fuel).1 _ _ _ _ _ _ _ _ ht hc hrun
  · intro o hrun
    exact (sink_grows h hk fuel).2.1 _ _ _ _ _ ht hc hrun
  · intro b bufs hw
    rw [flushDeferred]
    simp only [Writer.Write, hw]
    exact flushDeferred_grows wr bufs (out ++ b)

theorem failed_run_keeps_output_witness :
    Run sampleHost 9 failAfterTpl bytesBuffer [] [scope [("t", .tpl nestedDoc)]]
      = some (ascii "xaD", some (Error.RunErr 3 Stat.RUN_NOT_FOUND)) ∧
    [] ++ ascii "x" <+: ascii "xaD" :=
  have ha : ∀ t : Template, t.EscapeFunc = none → AppendOnly t.EscapeFunc :=
    fun t ht g hg => by rw [ht] at hg; cases hg
  have hc : ∀ x ∈ [scope [("t", .tpl nestedDoc)]], HooksAppend x := by
    intro x hx
    simp only [List.mem_singleton] at hx
    subst hx
    refine HooksAppend.map _ (fun kv hkv => ?_) (fun kv hkv => ?_)
    · simp only [List.map_cons, List.map_nil, List.mem_singleton] at hkv
      subst hkv
      exact HooksAppend.str _
    · simp only [List.map_cons, List.map_nil, List.mem_singleton] at hkv
      subst hkv
      exact HooksAppend.tpl _ (ha nestedDoc rfl)
  have w := failed_run_keeps_output sampleHost sampleHost_keepsHooks 8 failAfterTpl
    (ha failAfterTpl rfl) bytesBuffer [] [scope [("t", .tpl nestedDoc)]] hc
  ⟨(w.1 ⟨false, some (Error.RunErr 3 Stat.RUN_NOT_FOUND), ascii "xaD", []⟩
      (Error.RunErr 3 Stat.RUN_NOT_FOUND) rfl rfl).1,
   w.2.1 (ascii "x") [.VarFun (var 2 "t"), .VarFun (var 3 "y")] [] none
     ⟨false, some (Error.RunErr 3 Stat.RUN_NOT_FOUND), ascii "xaD", []⟩ rfl rfl⟩

/-! ## Conditionals -/

/-- C13, counterexample: in a template with `Strict = true`, a conditional
without comparator whose left operand `$x` no scope provides raises no error
and takes the false-branch, while the node `$x` itself is a resolution error
in the same template. -/
theorem conditional_operand_not_ambient :
    Run sampleHost 7 (.mk [ifX] true none) bytesBuffer [] [scope []]
      = some (ascii "F", none) ∧
    Run sampleHost 7 (.mk [.VarFun (var 2 "x")] true none) bytesBuffer [] [scope []]
      = some ([], some (Error.RunErr 2 Stat.RUN_NOT_FOUND)) :=
  ⟨rfl, rfl⟩

/-- C13, amended: the left operand of a conditional is resolved with
`strict = (cmp != if_nocmp)`, whatever the template's `Strict`: with a
comparator it is resolved strictly, and an error of that resolution ends the
walk with that error; without comparator it is resolved non-strictly, and the
branch is chosen by the truthiness of the value obtained (no value when the
operand is unresolved), also in a template with `Strict = true`. -/
theorem conditional_operand_strictness (h : Host) (fuel : Nat) (tpl : Template)
    (wr : Writer) (ctx : List Value) (ln : Nat) (pv : VarFunElem) (arg2 : Param)
    (tb fb rest : List Element) (out : Bytes) (d : List Bytes) (err : Option Error) :
    (∀ cmp : Cmp,
      execParam h (fuel + 1) (.varFun pv) ctx ln (cmp != Cmp.if_nocmp)
        = execVarFun h fuel pv ctx (cmp != Cmp.if_nocmp)) ∧
    (∀ (cmp : Cmp) (e : Error), cmp ≠ Cmp.if_nocmp →
      execVarFun h fuel pv ctx true = some (.error e) →
      run h (fuel + 2) tpl (Element.IfElem ln cmp (.varFun pv) arg2 tb fb :: rest)
          wr out d ctx err
        = some ⟨false, some e, out, d⟩) ∧
    (∀ v : Value, execVarFun h fuel pv ctx false = some (.ok v) →
      run h (fuel + 2) tpl
          (Element.IfElem ln Cmp.if_nocmp (.varFun pv) arg2 tb fb :: rest)
          wr out d ctx err
        = match run h (fuel + 1) tpl (if h.getBool v then tb else fb)
              wr out d ctx none with
          | none => none
          | some r =>
            if r.stop then some r
            else run h (fuel + 1) tpl rest wr r.out r.defer_out ctx none) := by
  refine ⟨?_, ?_, ?_⟩
  · intro cmp
    rw [execParam]
  · intro cmp e hcmp hres
    have hs : (cmp != Cmp.if_nocmp) = true := by simpa using hcmp
    rw [run, execParam, hs, hres]
  · intro v hres
    have hp : execParam h (fuel + 1) (.varFun pv) ctx ln (Cmp.if_nocmp != Cmp.if_nocmp)
        = some (.ok v) := by
      rw [execParam]
      simpa using hres
    exact run_IfElem h (fuel + 1) tpl wr ctx ln Cmp.if_nocmp (.varFun pv) arg2 tb fb rest
      out d err v Value.invalid (h.getBool v) hp (Or.inl ⟨rfl, rfl⟩)

theorem conditional_operand_strictness_witness :
    run sampleHost 5 (.mk [] false none) [ifXeq1] bytesBuffer [] [] [scope []] none
      = some ⟨false, some (Error.RunErr 2 Stat.RUN_NOT_FOUND), [], []⟩ ∧
    run sampleHost 5 (.mk [] true none) [ifX] bytesBuffer [] [] [scope []] none
      = some ⟨false, none, ascii "F", []⟩ :=
  ⟨(conditional_operand_strictness sampleHost 3 (.mk [] false none) bytesBuffer
      [scope []] 2 (var 2 "x") (.value (.int 1)) [txt "T"] [txt "F"] [] [] []
      none).2.1 (Cmp.op 0) (Error.RunErr 2 Stat.RUN_NOT_FOUND) (by decide) rfl,
   ((conditional_operand_strictness sampleHost 3 (.mk [] true none) bytesBuffer
      [scope []] 2 (var 2 "x") .nil [txt "T"] [txt "F"] [] [] []
      none).2.2 Value.invalid rfl).trans rfl⟩

/-- C14: in a conditional with a comparator whose operands both resolve, if
`getCmp` reports a status other than `RUN_OK`, the walk ends with the error
`RunErr{ln, stat}` of the conditional's line, the sink and the registry being
left as they were (neither branch is executed), and `Run` returns that error;
this holds for every template, with `Strict` true or false. -/
theorem conditional_compare_fails (h : Host) (fuel : Nat) (tpl : Template)
    (wr : Writer) (ctx : List Value) (ln : Nat) (cmp : Cmp) (arg1 arg2 : Param)
    (tb fb rest : List Element) (out : Bytes) (d : List Bytes) (err : Option Error)
    (v1 v2 : Value)
    (hcmp : cmp ≠ Cmp.if_nocmp)
    (h1 : execParam h fuel arg1 ctx ln true = some (.ok v1))
    (h2 : execParam h fuel arg2 ctx ln true = some (.ok v2))
    (hstat : (h.getCmp v1 v2 cmp).2 ≠ Stat.RUN_OK) :
    run h (fuel + 1) tpl (Element.IfElem ln cmp arg1 arg2 tb fb :: rest) wr out d ctx err
      = some ⟨false, some (Error.RunErr ln (h.getCmp v1 v2 cmp).2), out, d⟩ ∧
    (tpl.elems = Element.IfElem ln cmp arg1 arg2 tb fb :: rest →
      Run h (fuel + 2) tpl wr out ctx
        = some (out, some (Error.RunErr ln (h.getCmp v1 v2 cmp).2))) := by
  have hs : (cmp != Cmp.if_nocmp) = true := by simpa using hcmp
  have hrun : ∀ (out : Bytes) (d : List Bytes) (err : Option Error),
      run h (fuel + 1) tpl (Element.IfElem ln cmp arg1 arg2 tb fb :: rest) wr out d ctx err
        = some ⟨false, some (Error.RunErr ln (h.getCmp v1 v2 cmp).2), out, d⟩ := by
    intro out d err
    rw [run, hs, h1]
    simp only [hcmp, if_false, h2, hstat, if_true, ne_eq, not_false_eq_true]
  refine ⟨hrun out d err, ?_⟩
  intro helems
  rw [Run, helems, hrun out [] none]

theorem conditional_compare_fails_witness :
    Run sampleHost 6 (.mk [ifSeqEq1] true none) bytesBuffer [] returnCtx
      = some ([], some (Error.RunErr 4 (Stat.other 2))) ∧
    Run sampleHost 6 (.mk [ifSeqEq1] false none) bytesBuffer [] returnCtx
      = some ([], some (Error.RunErr 4 (Stat.other 2))) :=
  ⟨(conditional_compare_fails sampleHost 4 (.mk [ifSeqEq1] true none) bytesBuffer
      returnCtx 4 (Cmp.op 0) (.varFun (var 4 "xs")) (.value (.int 1)) [txt "T"] [txt "F"]
      [] [] [] none (.slice [.int 1, .int 2, .int 3]) (.int 1) (by decide) rfl rfl
      (by decide)).2 rfl,
   (conditional_compare_fails sampleHost 4 (.mk [ifSeqEq1] false none) bytesBuffer
      returnCtx 4 (Cmp.op 0) (.varFun (var 4 "xs")) (.value (.int 1)) [txt "T"] [txt "F"]
      [] [] [] none (.slice [.int 1, .int 2, .int 3]) (.int 1) (by decide) rfl rfl
      (by decide)).2 rfl⟩

/-! ## Output of a `VarFunElem` -/

/-- The `Template` case of a `VarFunElem`. -/
theorem run_VarFun_tpl (h : Host) (fuel : Nat) (tpl : Template) (wr : Writer)
    (ctx : List Value) (el : VarFunElem) (rest : List Element) (out : Bytes)
    (d : List Bytes) (err : Option Error) (val0 : Value) (vtn : Template)
    (hres : execVarFun h fuel el ctx tpl.Strict = some (.ok val0))
    (hd : h.dereference val0 = Value.tpl vtn) :
    run h (fuel + 1) tpl (Element.VarFun el :: rest) wr out d ctx err
      = match Run h fuel vtn wr out ctx with
        | none => none
        | some (out1, some e) =>
          some ⟨false, some (Error.RunErrCause el.ln Stat.RUN_NESTED e), out1, d⟩
        | some (out1, none) => run h fuel tpl rest wr out1 d ctx none := by
  rw [run, hres]
  simp only [hd]

/-- The `NestedTemplate` case of a `VarFunElem`. -/
theorem run_VarFun_nested (h : Host) (fuel : Nat) (tpl : Template) (wr : Writer)
    (ctx : List Value) (el : VarFunElem) (rest : List Element) (out : Bytes)
    (d : List Bytes) (err : Option Error) (val0 : Value) (vtn : Template)
    (vctx : List Value)
    (hres : execVarFun h fuel el ctx tpl.Strict = some (.ok val0))
    (hd : h.dereference val0 = Value.nested vtn vctx) :
    run h (fuel + 1) tpl (Element.VarFun el :: rest) wr out d ctx err
      = match Run h fuel vtn wr out vctx with
        | none => none
        | some (out1, some e) =>
          some ⟨false, some (Error.RunErrCause el.ln Stat.RUN_NESTED e), out1, d⟩
        | some (out1, none) => run h fuel tpl rest wr out1 d ctx none := by
  rw [run, hres]
  simp only [hd]

/-- The `[]byte` case of a `VarFunElem`. -/
theorem run_VarFun_bytes (h : Host) (fuel : Nat) (tpl : Template) (wr : Writer)
    (ctx : List Value) (el : VarFunElem) (rest : List Element) (out : Bytes)
    (d : List Bytes) (err : Option Error) (val0 : Value) (b : Bytes)
    (hres : execVarFun h fuel el ctx tpl.Strict = some (.ok val0))
    (hd : h.dereference val0 = Value.bytes b) :
    run h (fuel + 1) tpl (Element.VarFun el :: rest) wr out d ctx err
      = run h fuel tpl rest wr (emit tpl wr el.filt out b).1 d ctx
          (emit tpl wr el.filt out b).2 := by
  rw [run, hres]
  simp only [hd]

theorem run_nil_ctx_irrelevant (h : Host) (fuel : Nat) (tpl : Template) (wr : Writer)
    (out : Bytes) (d : List Bytes) (ctx1 ctx2 : List Value) (err : Option Error) :
    run h fuel tpl [] wr out d ctx1 err = run h fuel tpl [] wr out d ctx2 err := by
  cases fuel <;> simp [run]

/-- C15: a `VarFunElem` that resolves to a nested template bound to its own
context runs the bound template with the bound context (`vtn.tpl.Run(wr,
vtn.ctx...)`), the outer context stack playing no part; so a document made of
that node renders the same under any two outer context stacks under which the
node resolves to the same `NestedTemplate` value. -/
theorem nested_context_isolation (h : Host) (fuel : Nat) (tpl : Template)
    (wr : Writer) (ctx : List Value) (el : VarFunElem) (out : Bytes) (val0 : Value)
    (t : Template) (bound : List Value)
    (hres : execVarFun h fuel el ctx tpl.Strict = some (.ok val0))
    (hd : h.dereference val0 = t.Nested bound) :
    (∀ (rest : List Element) (d : List Bytes) (err : Option Error),
      run h (fuel + 1) tpl (Element.VarFun el :: rest) wr out d ctx err
        = match Run h fuel t wr out bound with
          | none => none
          | some (out1, some e) =>
            some ⟨false, some (Error.RunErrCause el.ln Stat.RUN_NESTED e), out1, d⟩
          | some (out1, none) => run h fuel tpl rest wr out1 d ctx none) ∧
    (∀ (ctx2 : List Value) (val2 : Value),
      execVarFun h fuel el ctx2 tpl.Strict = some (.ok val2) →
      h.dereference val2 = t.Nested bound →
      tpl.elems = [Element.VarFun el] →
      Run h (fuel + 2) tpl wr out ctx = Run h (fuel + 2) tpl wr out ctx2) := by
  refine ⟨?_, ?_⟩
  · intro rest d err
    exact run_VarFun_nested h fuel tpl wr ctx el rest out d err val0 t bound hres hd
  · intro ctx2 val2 hres2 hd2 helems
    rw [Run, Run, helems,
      run_VarFun_nested h fuel tpl wr ctx el [] out [] none val0 t bound hres hd,
      run_VarFun_nested h fuel tpl wr ctx2 el [] out [] none val2 t bound hres2 hd2]
    cases Run h fuel t wr out bound with
    | none => rfl
    | some o =>
      obtain ⟨out1, e⟩ := o
      cases e with
      | some e => rfl
      | none =>
        simp only []
        rw [run_nil_ctx_irrelevant h fuel tpl wr out1 [] ctx ctx2 none]

theorem nested_context_isolation_witness :
    Run sampleHost 9 (.mk [.VarFun (var 2 "t")] true none) bytesBuffer []
        [scope [("t", boundTpl), ("n", .str (ascii "out"))]]
      = some (ascii "in", none) ∧
    Run sampleHost 9 (.mk [.VarFun (var 2 "t")] true none) bytesBuffer []
        [scope [("t", boundTpl), ("n", .str (ascii "out"))]]
      = Run sampleHost 9 (.mk [.VarFun (var 2 "t")] true none) bytesBuffer []
        [scope [("n", .str (ascii "other"))], scope [("t", boundTpl)]] :=
  ⟨rfl,
   (nested_context_isolation sampleHost 7 (.mk [.VarFun (var 2 "t")] true none)
      bytesBuffer [scope [("t", boundTpl), ("n", .str (ascii "out"))]] (var 2 "t") []
      boundTpl innerTpl [scope [("n", .str (ascii "in"))]] rfl rfl).2
      [scope [("n", .str (ascii "other"))], scope [("t", boundTpl)]] boundTpl rfl rfl rfl⟩

/-- C16: for a `VarFunElem` that resolves to a raw byte value `b`: if the node
is escapable and the template has an escape hook `f`, the sink and the error
are those of `f(wr, b)`; otherwise (node not escapable, or no hook) they are
those of `wr.Write(b)`, which on a sink that never fails appends `b` verbatim.
The hook plays no part in the output step of a node that is not escapable,
whatever is written, nor in a `TxtElem`, which is written with `wr.Write`. -/
theorem raw_bytes_output (h : Host) (fuel : Nat) (tpl : Template) (wr : Writer)
    (ctx : List Value) (el : VarFunElem) (rest : List Element) (out : Bytes)
    (d : List Bytes) (err : Option Error) (val0 : Value) (b : Bytes)
    (hres : execVarFun h fuel el ctx tpl.Strict = some (.ok val0))
    (hd : h.dereference val0 = Value.bytes b) :
    (∀ f : EscapeFn, el.filt = true → tpl.EscapeFunc = some f →
      run h (fuel + 1) tpl (Element.VarFun el :: rest) wr out d ctx err
        = run h fuel tpl rest wr (f wr out b).1 d ctx (f wr out b).2) ∧
    (el.filt = false ∨ tpl.EscapeFunc = none →
      run h (fuel + 1) tpl (Element.VarFun el :: rest) wr out d ctx err
          = run h fuel tpl rest wr (wr.Write out b).1 d ctx (wr.Write out b).2 ∧
        (wr.NeverFails →
          run h (fuel + 1) tpl (Element.VarFun el :: rest) wr out d ctx err
            = run h fuel tpl rest wr (out ++ b) d ctx none)) ∧
    (∀ txt : Bytes, emit tpl wr false out txt = wr.Write out txt) ∧
    (∀ txt : Bytes,
      run h (fuel + 1) tpl (Element.TxtElem txt :: rest) wr out d ctx err
        = match wr.Write out txt with
          | (out1, some e) => some ⟨false, some e, out1, d⟩
          | (out1, none) => run h fuel tpl rest wr out1 d ctx none) := by
  have hrun := run_VarFun_bytes h fuel tpl wr ctx el rest out d err val0 b hres hd
  refine ⟨?_, ?_, ?_, ?_⟩
  · intro f hf hhook
    rw [hrun]
    simp [emit, hf, hhook]
  · intro hcase
    have hemit : emit tpl wr el.filt out b = wr.Write out b := by
      rcases hcase with hf | hn
      · simp [emit, hf]
      · simp [emit, hn]
    refine ⟨by rw [hrun, hemit], ?_⟩
    intro hw
    rw [hrun, hemit, Writer.Write_of_neverFails hw]
  · intro txt
    simp [emit]
  · intro txt
    rw [run]

theorem raw_bytes_output_witness :
    Run sampleHost 6 (.mk [.VarFun (var 1 "b")] true (some WriteEscapedHtml))
        bytesBuffer [] ctxRaw
      = some (ascii "&lt;a&gt;", none) ∧
    Run sampleHost 6 (.mk [.VarFun (rawVar 1 "b")] true (some WriteEscapedHtml))
        bytesBuffer [] ctxRaw
      = some (ascii "<a>", none) ∧
    Run sampleHost 6 (.mk [.VarFun (var 1 "b")] true none) bytesBuffer [] ctxRaw
      = some (ascii "<a>", none) :=
  have e1 : Run sampleHost 6 (.mk [.VarFun (var 1 "b")] true (some WriteEscapedHtml))
      bytesBuffer [] ctxRaw
      = match run sampleHost 5 (.mk [.VarFun (var 1 "b")] true (some WriteEscapedHtml))
          [.VarFun (var 1 "b")] bytesBuffer [] [] ctxRaw none with
        | none => none
        | some r =>
          match r.err with
          | some e => some (r.out, some e)
          | none => some (flushDeferred bytesBuffer r.defer_out.reverse r.out) := rfl
  have e2 : Run sampleHost 6 (.mk [.VarFun (rawVar 1 "b")] true (some WriteEscapedHtml))
      bytesBuffer [] ctxRaw
      = match run sampleHost 5 (.mk [.VarFun (rawVar 1 "b")] true (some WriteEscapedHtml))
          [.VarFun (rawVar 1 "b")] bytesBuffer [] [] ctxRaw none with
        | none => none
        | some r =>
          match r.err with
          | some e => some (r.out, some e)
          | none => some (flushDeferred bytesBuffer r.defer_out.reverse r.out) := rfl
  have e3 : Run sampleHost 6 (.mk [.VarFun (var 1 "b")] true none) bytesBuffer [] ctxRaw
      = match run sampleHost 5 (.mk [.VarFun (var 1 "b")] true none)
          [.VarFun (var 1 "b")] bytesBuffer [] [] ctxRaw none with
        | none => none
        | some r =>
          match r.err with
          | some e => some (r.out, some e)
          | none => some (flushDeferred bytesBuffer r.defer_out.reverse r.out) := rfl
  ⟨e1.trans (by
      rw [(raw_bytes_output sampleHost 4 (.mk [.VarFun (var 1 "b")] true
        (some WriteEscapedHtml)) bytesBuffer ctxRaw (var 1 "b") [] [] [] none
        (.bytes (ascii "<a>")) (ascii "<a>") rfl rfl).1 WriteEscapedHtml rfl rfl]
      rfl),
   e2.trans (by
      rw [((raw_bytes_output sampleHost 4 (.mk [.VarFun (rawVar 1 "b")] true
        (some WriteEscapedHtml)) bytesBuffer ctxRaw (rawVar 1 "b") [] [] [] none
        (.bytes (ascii "<a>")) (ascii "<a>") rfl rfl).2.1 (Or.inl rfl)).2 (fun _ _ => rfl)]
      rfl),
   e3.trans (by
      rw [((raw_bytes_output sampleHost 4 (.mk [.VarFun (var 1 "b")] true none)
        bytesBuffer ctxRaw (var 1 "b") [] [] [] none
        (.bytes (ascii "<a>")) (ascii "<a>") rfl rfl).2.1 (Or.inr rfl)).2 (fun _ _ => rfl)]
      rfl)⟩

/-- C20: a `VarFunElem` that resolves to a template value runs it as a `Run` of
its own, with the current context stack for a `Template` and the bound one
for a `NestedTemplate`.  When the walk of that template, started with an empty
registry, ends without error (with `ret` true or false) on a sink that never
fails, the outer walk goes on with the next node from a sink that holds the
nested walk's output followed by the nested deferred buffers, last registered
first, and with the outer registry as it was. -/
theorem nested_template_own_run (h : Host) (fuel : Nat) (tpl : Template)
    (wr : Writer) (hw : wr.NeverFails) (ctx : List Value) (el : VarFunElem)
    (rest : List Element) (out : Bytes) (d : List Bytes) (err : Option Error)
    (val0 : Value) (vtn : Template) (vctx : List Value) (r : RunRes)
    (hres : execVarFun h (fuel + 1) el ctx tpl.Strict = some (.ok val0))
    (hd : (h.dereference val0 = Value.tpl vtn ∧ vctx = ctx) ∨
      h.dereference val0 = Value.nested vtn vctx)
    (hwalk : run h fuel vtn vtn.elems wr out [] vctx none = some r)
    (herr : r.err = none) :
    Run h (fuel + 1) vtn wr out vctx
      = some (r.out ++ r.defer_out.reverse.flatten, none) ∧
    run h (fuel + 2) tpl (Element.VarFun el :: rest) wr out d ctx err
      = run h (fuel + 1) tpl rest wr (r.out ++ r.defer_out.reverse.flatten) d ctx none := by
  have hRun : Run h (fuel + 1) vtn wr out vctx
      = some (r.out ++ r.defer_out.reverse.flatten, none) := by
    rw [Run_of_run h fuel vtn wr out vctx r hwalk, herr]
    simp only []
    rw [flushDeferred_of_neverFails hw]
  refine ⟨hRun, ?_⟩
  rcases hd with ⟨hd, hc⟩ | hd
  · subst hc
    rw [run_VarFun_tpl h (fuel + 1) tpl wr vctx el rest out d err val0 vtn hres hd, hRun]
  · rw [run_VarFun_nested h (fuel + 1) tpl wr ctx el rest out d err val0 vtn vctx hres hd,
      hRun]

theorem nested_template_own_run_witness :
    bytesBuffer.NeverFails ∧
    run sampleHost 6 outerDoc [.VarFun (var 2 "t"), txt "z"] bytesBuffer [] [ascii "O"]
        [scope [("t", .tpl nestedDoc)]] none
      = some ⟨false, none, ascii "aDz", [ascii "O"]⟩ ∧
    Run sampleHost 8 outerDoc bytesBuffer [] [scope [("t", .tpl nestedDoc)]]
      = some (ascii "aDzO", none) :=
  ⟨fun _ _ => rfl,
   ((nested_template_own_run sampleHost 4 outerDoc bytesBuffer (fun _ _ => rfl)
      [scope [("t", .tpl nestedDoc)]] (var 2 "t") [txt "z"] [] [ascii "O"] none
      (.tpl nestedDoc) nestedDoc [scope [("t", .tpl nestedDoc)]]
      ⟨true, none, ascii "a", [ascii "D"]⟩ rfl (Or.inl ⟨rfl, rfl⟩) rfl rfl).2).trans rfl,
   rfl⟩

/-! ## Loops over a scalar -/

/-- C17, counterexample: with the element name and the index name both `x`,
the scope of a loop over the scalar 5 binds `x` to nil only, so a body printing
`$x` writes nothing; with the index name `i` it writes `5`. -/
theorem scalar_loop_binding_counterexample :
    Value.map (mapSet (mapSet [] (ascii "x") (Value.int 5)) (ascii "x") Value.invalid)
      = Value.map [(Value.str (ascii "x"), Value.invalid)] ∧
    Run sampleHost 8 (.mk [scalarLoop "x"] true none) bytesBuffer []
        [scope [("s", .int 5)]]
      = some ([], none) ∧
    Run sampleHost 8 (.mk [scalarLoop "i"] true none) bytesBuffer []
        [scope [("s", .int 5)]]
      = some (ascii "5", none) :=
  ⟨rfl, rfl, rfl⟩

/-- C17, amended: for a loop whose source resolves to a scalar other than nil,
whatever the index offset and the empty-branch, the body is executed once,
against the context stack extended by one scope in which the index name is
bound to nil and, the two names being different, the element name to the
scalar (when the two names are equal the scope binds that name to nil); the
walk then ends with the result of the body if it returned or failed, and goes
on with the next node otherwise. -/
theorem loop_over_scalar (h : Host) (fuel : Nat) (tpl : Template) (wr : Writer)
    (ctx : List Value) (ln : Nat) (arg : VarFunElem) (val iter : Bytes) (inc : Int)
    (ib eb rest : List Element) (out : Bytes) (d : List Bytes) (err : Option Error)
    (val0 : Value)
    (hsrc : execVarFun h (fuel + 1) arg ctx false = some (.ok val0))
    (hkind : (h.dereference val0).Kind = Kind.Scalar) :
    run h (fuel + 2) tpl (Element.ForElem ln arg val iter inc ib eb :: rest) wr out d ctx err
      = (match run h (fuel + 1) tpl ib wr out d
            (ctx ++ [localCtx val iter (h.dereference val0) Value.invalid]) none with
        | none => none
        | some r =>
          if r.stop then some r
          else run h (fuel + 1) tpl rest wr r.out r.defer_out ctx none) ∧
    (val ≠ iter →
      localCtx val iter (h.dereference val0) Value.invalid
        = iterScopeSpec val iter (h.dereference val0) Value.invalid) ∧
    (val = iter →
      localCtx val iter (h.dereference val0) Value.invalid
        = Value.map [(Value.str iter, Value.invalid)]) := by
  refine ⟨?_, localCtx_of_ne val iter _ _, ?_⟩
  · exact run_ForElem_scalar h fuel tpl wr ctx ib eb rest val iter inc ln arg out d err
      val0 hsrc hkind
  · intro he
    subst he
    exact localCtx_same val _ _

theorem loop_over_scalar_witness :
    run sampleHost 7 (.mk [] true none) [scalarLoop "i"] bytesBuffer [] []
        [scope [("s", .int 5)]] none
      = some ⟨false, none, ascii "5", []⟩ :=
  ((loop_over_scalar sampleHost 5 (.mk [] true none) bytesBuffer
      [scope [("s", .int 5)]] 1 (var 1 "s") (ascii "x") (ascii "i") 3
      [.VarFun (var 1 "x")] [txt "e"] [] [] [] none (.int 5) rfl rfl).1).trans rfl

/-! ## The context stack as a value -/

/-- C18: when the first segment of a path has no key and is not a call, the
first segment is the context stack itself, `ContextItself(ctx)`, a value of
kind slice whose elements are the scopes: the later segments are followed from
it, and a one-segment path resolves to it with no error, in strict and in
non-strict mode alike and for the empty stack too.  No scope is probed: the
path `$@` resolves so on every host, whatever its `getVarFun`. -/
theorem context_itself (h : Host) (fuel : Nat) (vf : VarFunElem) (ctx : List Value)
    (name_id : Value) (names args : List Value) (strict : Bool)
    (hpath : pathNames h fuel (some vf) ctx = some (.ok (name_id :: names)))
    (hargs : execArgs h fuel vf.args ctx vf.ln = some (.ok args))
    (hkey : name_id.IsValid = false) (hfn : vf.fn = false) :
    execVarFun h (fuel + 1) vf ctx strict
      = restPath h fuel (Value.ctxItself ctx) names vf ctx strict ∧
    (names = [] → execVarFun h (fuel + 1) vf ctx strict = some (.ok (Value.ctxItself ctx))) ∧
    (Value.ctxItself ctx).Kind = Kind.Slice ∧ (Value.ctxItself ctx).items = ctx ∧
    (∀ (h1 : Host) (n ln : Nat) (filt : Bool) (ctx1 : List Value) (strict1 : Bool),
      execVarFun h1 (n + 3) (.mk ln filt false .nil [] none) ctx1 strict1
        = some (.ok (Value.ctxItself ctx1))) := by
  have hexec : ∀ (h1 : Host) (n : Nat) (vf1 : VarFunElem) (ctx1 : List Value)
      (key : Value) (names1 args1 : List Value) (strict1 : Bool),
      pathNames h1 n (some vf1) ctx1 = some (.ok (key :: names1)) →
      execArgs h1 n vf1.args ctx1 vf1.ln = some (.ok args1) →
      key.IsValid = false → vf1.fn = false →
      execVarFun h1 (n + 1) vf1 ctx1 strict1
        = restPath h1 n (Value.ctxItself ctx1) names1 vf1 ctx1 strict1 := by
    intro h1 n vf1 ctx1 key names1 args1 strict1 hp ha hk hf
    rw [execVarFun_eq h1 n vf1 ctx1 strict1 key names1 args1 hp ha, hk, hf]
    simp
  refine ⟨hexec h fuel vf ctx name_id names args strict hpath hargs hkey hfn, ?_, rfl, rfl, ?_⟩
  · intro hn
    rw [hexec h fuel vf ctx name_id names args strict hpath hargs hkey hfn, hn]
    cases fuel with
    | zero => simp [pathNames] at hpath
    | succ n => simp [restPath]
  · intro h1 n ln filt ctx1 strict1
    rw [hexec h1 (n + 2) (.mk ln filt false .nil [] none) ctx1 Value.invalid [] [] strict1
      (by simp [pathNames, VarFunElem.name, VarFunElem.next])
      (by simp [execArgs, VarFunElem.args]) rfl rfl]
    simp [restPath]

theorem context_itself_witness :
    execVarFun sampleHost 3 (.mk 1 true false .nil [] none) [] true
      = some (.ok (Value.ctxItself [])) ∧
    execVarFun sampleHost 3 (.mk 1 true false .nil [] none) [scope [], .int 1] false
      = some (.ok (Value.ctxItself [scope [], .int 1])) :=
  ⟨(context_itself sampleHost 2 (.mk 1 true false .nil [] none) [] Value.invalid [] []
      true rfl rfl rfl rfl).2.1 rfl,
   (context_itself sampleHost 2 (.mk 1 true false .nil [] none) [scope [], .int 1]
      Value.invalid [] [] false rfl rfl rfl rfl).2.1 rfl⟩

/-! ## The output of `WriteEscapedHtml` -/

theorem WriteEscapedHtml_eq_escapeSpec {wr : Writer} (hw : wr.NeverFails)
    (out txt : Bytes) : WriteEscapedHtml wr out txt = (out ++ escapeSpec txt, none) := by
  have h := WriteEscapedHtml.loop_eq hw txt txt [] 0 out (by simp) (by simp) (by simp)
  simpa [WriteEscapedHtml] using h

theorem entities_safe :
    ∀ e ∈ entities, (∀ x ∈ e, x ≠ 60 ∧ x ≠ 62 ∧ x ≠ 39 ∧ x ≠ 34) ∧
      (∀ i < e.length, e[i]? = some 38 → i = 0) := by
  decide

/-- The bytes written for one input byte: none of them is `<`, `>`, `'` or `"`,
and `&` can only be their first byte, in which case they are an entity. -/
theorem escapeByteSpec_safe (bb : Nat) :
    (∀ x ∈ escapeByteSpec bb, x ≠ 60 ∧ x ≠ 62 ∧ x ≠ 39 ∧ x ≠ 34) ∧
    (∀ i, (escapeByteSpec bb)[i]? = some 38 → i = 0 ∧ escapeByteSpec bb ∈ entities) := by
  have hent : ∀ e ∈ entities, (∀ x ∈ e, x ≠ 60 ∧ x ≠ 62 ∧ x ≠ 39 ∧ x ≠ 34) ∧
      (∀ i, e[i]? = some 38 → i = 0 ∧ e ∈ entities) := by
    intro e he
    refine ⟨(entities_safe e he).1, ?_⟩
    intro i hi
    have hlt : i < e.length := by
      by_contra hge
      rw [List.getElem?_eq_none (by omega)] at hi
      exact Option.noConfusion hi
    exact ⟨(entities_safe e he).2 i hlt hi, he⟩
  rw [escapeByteSpec_eq]
  cases hesc : escOf bb with
  | some e =>
    have he : e ∈ entities := by
      unfold escOf at hesc
      split_ifs at hesc <;> simp at hesc <;> subst hesc <;> simp [entities]
    simpa using hent e he
  | none =>
    have hbb : bb ≠ 38 ∧ bb ≠ 39 ∧ bb ≠ 60 ∧ bb ≠ 62 ∧ bb ≠ 34 := by
      unfold escOf at hesc
      split_ifs at hesc with h1 h2 h3 h4 h5
      exact ⟨h1, h2, h3, h4, h5⟩
    obtain ⟨h1, h2, h3, h4, h5⟩ := hbb
    refine ⟨?_, ?_⟩
    · intro x hx
      simp at hx
      subst hx
      exact ⟨h3, h4, h2, h5⟩
    · intro i hi
      rcases i with _ | i
      · simp at hi
        exact (h1 hi).elim
      · simp at hi

theorem escapeSpec_safe (txt : Bytes) :
    (∀ x ∈ escapeSpec txt, x ≠ 60 ∧ x ≠ 62 ∧ x ≠ 39 ∧ x ≠ 34) ∧
    (∀ i, (escapeSpec txt)[i]? = some 38 → EntityAt (escapeSpec txt) i) := by
  induction txt with
  | nil =>
    refine ⟨?_, ?_⟩
    · intro x hx; simp [escapeSpec] at hx
    · intro i hi; simp [escapeSpec] at hi
  | cons bb rest ih =>
    rw [escapeSpec_cons]
    obtain ⟨c1, c2⟩ := escapeByteSpec_safe bb
    refine ⟨?_, ?_⟩
    · intro x hx
      rcases List.mem_append.mp hx with hx | hx
      · exact c1 x hx
      · exact ih.1 x hx
    · intro i hi
      by_cases hlt : i < (escapeByteSpec bb).length
      · rw [List.getElem?_append_left hlt] at hi
        obtain ⟨h0, hmem⟩ := c2 i hi
        subst h0
        exact ⟨escapeByteSpec bb, hmem, by simp⟩
      · have hge : (escapeByteSpec bb).length ≤ i := by omega
        rw [List.getElem?_append_right hge] at hi
        obtain ⟨e, he, hpre⟩ := ih.2 _ hi
        refine ⟨e, he, ?_⟩
        rw [List.drop_append_eq_append_drop, List.drop_of_length_le hge]
        simpa using hpre

/-- C19: on a sink whose writes never fail, `WriteEscapedHtml(wr, txt)` appends
bytes among which there is no `<`, `>`, `'` or `"`, and in which every `&` is
the first byte of one of the five entities `&amp;`, `&apos;`, `&lt;`, `&gt;`,
`&quot;`. -/
theorem WriteEscapedHtml_output_safe (wr : Writer) (hw : wr.NeverFails)
    (out txt : Bytes) :
    ∃ o : Bytes, WriteEscapedHtml wr out txt = (out ++ o, none) ∧
      (∀ x ∈ o, x ≠ '<'.toNat ∧ x ≠ '>'.toNat ∧ x ≠ '\''.toNat ∧ x ≠ '"'.toNat) ∧
      (∀ i, o[i]? = some '&'.toNat →
        ∃ e ∈ [ascii "&amp;", ascii "&apos;", ascii "&lt;", ascii "&gt;", ascii "&quot;"],
          e <+: o.drop i) :=
  ⟨escapeSpec txt, WriteEscapedHtml_eq_escapeSpec hw out txt,
    (escapeSpec_safe txt).1, (escapeSpec_safe txt).2⟩

theorem WriteEscapedHtml_output_safe_witness :
    bytesBuffer.NeverFails ∧
    ∃ o : Bytes, WriteEscapedHtml bytesBuffer [] (ascii "a&<b>'\"&amp;") = ([] ++ o, none) ∧
      (∀ x ∈ o, x ≠ '<'.toNat ∧ x ≠ '>'.toNat ∧ x ≠ '\''.toNat ∧ x ≠ '"'.toNat) ∧
      (∀ i, o[i]? = some '&'.toNat →
        ∃ e ∈ [ascii "&amp;", ascii "&apos;", ascii "&lt;", ascii "&gt;", ascii "&quot;"],
          e <+: o.drop i) :=
  ⟨fun _ _ => rfl,
   WriteEscapedHtml_output_safe bytesBuffer (fun _ _ => rfl) [] (ascii "a&<b>'\"&amp;")⟩

end Kasia
